import Mathlib

/-!
# Verification of the CLMS_NetCDF2COG COG-processing kernel

A shallow embedding of `cogProcessor.py` (product-name codec, attribute
translation, the per-band conversion pipeline, and the safe-move routine),
together with theorems settling the specification claims.

Conventions of the embedding:
* Python strings are Lean `String`s; character-level work happens on `List Char`
  via `String.data` / `List.asString`.
* Python exceptions are values of `PyErr`; a fallible function returns
  `Except PyErr α`.  The spec's error taxonomy maps as follows:
  NameGrammarError = the `IndexError`/`ValueError` raised by the name parser,
  ConfigurationError = the `ValueError` raised for a bad `listEnclosure`,
  AttributeMappingError = the `KeyError` for a missing `parent_identifier`,
  BandConversionError = `CalledProcessError` from a failed shell command.
* Filesystem paths are `(folder, filename)` pairs; `os.path.join` is pairing.
  Directory creation (`_safeMakeDirs`) touches no files and no claim mentions
  it, so the pipeline model treats the two working folders as present.
* External commands are modelled by an environment `env : String -> Bool`
  giving the success of each exact command line the code builds; a successful
  command writes its documented output file, whose content is tracked as a
  provenance term (`FData`), which is what "byte-identical" compares.
-/

/-- Python exception values raised by the code under study. -/
inductive PyErr where
  | indexError : PyErr
  | keyError : String → PyErr
  | valueError : String → PyErr
  | calledProcessError : PyErr
  | fileNotFoundError : PyErr
  | typeError : PyErr
deriving DecidableEq, Repr

/-- Python attribute values as they occur in the NetCDF attribute dictionaries:
plain strings, plain ints, numpy arrays of numbers, and plain Python lists of
numbers.  The code distinguishes numpy arrays (`type(value) == numpy.ndarray`)
from everything else. -/
inductive PyValue where
  | pyStr : String → PyValue
  | pyInt : Int → PyValue
  | npArray : List Int → PyValue
  | pyList : List Int → PyValue
deriving DecidableEq, Repr

/-- `str(value)` for the values above (used by f-string interpolation). -/
def pyStrOf : PyValue → String
  | .pyStr s => s
  | .pyInt n => toString n
  | .npArray xs => toString xs
  | .pyList xs => toString xs

/-- `__version__` of cogProcessor.py. -/
def cogVersion : String := "1.0.0"

/-- Python `s.split(sep)` for a one-character separator: splits on every
occurrence, keeping empty pieces; the result is never empty. -/
def pySplit (sep : Char) : List Char → List (List Char)
  | [] => [[]]
  | c :: rest =>
    match pySplit sep rest with
    | [] => [[]]
    | h :: t => if c = sep then [] :: h :: t else (c :: h) :: t

/-- Python `sep.join(pieces)` at the character-list level. -/
def pyIntercalate (sep : List Char) : List (List Char) → List Char
  | [] => []
  | [x] => x
  | x :: y :: xs => x ++ sep ++ pyIntercalate sep (y :: xs)

/-- Split a character list at its last `'.'`: returns
`(before, from-the-dot-on)` when a dot exists. -/
def lastDotSplit : List Char → Option (List Char × List Char)
  | [] => none
  | c :: rest =>
    match lastDotSplit rest with
    | some (p, s) => some (c :: p, s)
    | none => if c = '.' then some ([], c :: rest) else none

/-- `os.path.splitext` for a plain basename: split at the last dot, unless
every character before that dot is itself a dot (leading-dots rule). -/
def splitext (s : List Char) : List Char × List Char :=
  match lastDotSplit s with
  | some (p, e) => if p.any (fun c => c ≠ '.') then (p, e) else (s, [])
  | none => (s, [])

/-- Python `s.replace(old, new)` for a nonempty `old`: left-to-right,
non-overlapping replacement of every occurrence.  Structural recursion on a
fuel argument (which callers set to the length of the scanned list, always
enough since each step consumes at least one character). -/
def pyReplaceCore (old new : List Char) : Nat → List Char → List Char
  | _, [] => []
  | 0, s => s
  | fuel + 1, c :: rest =>
    if old ≠ [] ∧ old.isPrefixOf (c :: rest) then
      new ++ pyReplaceCore old new fuel ((c :: rest).drop old.length)
    else
      c :: pyReplaceCore old new fuel rest

/-- Python `s.replace(old, new)` on strings. -/
def pyReplace (s old new : String) : String :=
  (pyReplaceCore old.data new.data s.data.length s.data).asString

instance {ε α : Type} [DecidableEq ε] [DecidableEq α] : DecidableEq (Except ε α) :=
  fun a b =>
    match a, b with
    | .ok x, .ok y =>
      if h : x = y then .isTrue (by rw [h]) else .isFalse (by simp [h])
    | .error x, .error y =>
      if h : x = y then .isTrue (by rw [h]) else .isFalse (by simp [h])
    | .ok _, .error _ => .isFalse (by simp)
    | .error _, .ok _ => .isFalse (by simp)

/-- Python truthiness of an optional string (`None` and `""` are falsy). -/
def truthy : Option String → Bool
  | none => false
  | some s => !s.isEmpty

/-- The dictionary produced by `_unpackNetCDFProductName` (plus the
`parameter` slot that `createCogFileName` adds before packing). -/
structure ProdElements where
  project : String
  product : String
  productDate : String
  roi : String
  sensor : String
  version : String
  extention : String
  subProduct : Option String
  timeIndex : Option String
  parameter : Option String := none
deriving DecidableEq, Repr

/-- Stem of a product name (filename minus extension), as characters. -/
def stemOf (s : String) : List Char := (splitext s.data).1

/-- The underscore-separated segments of the stem. -/
def underscoreParts (s : String) : List (List Char) := pySplit '_' (stemOf s)

/-- The hyphen-separated sub-parts of the third underscore segment. -/
def hyphenParts (s : String) : List (List Char) :=
  pySplit '-' ((underscoreParts s).getD 2 [])

/-- `_unpackNetCDFProductName(productname, hasTimeIndex)`.

Faithful to the source: the stem is split on `'_'`; indices `2..6` are read
(Python raises `IndexError` as soon as fewer than 7 segments exist — segments
beyond the seventh are silently ignored); the third segment is split on `'-'`
and the part-count / `hasTimeIndex` combination is dispatched exactly as the
`if`/`elif` chain does, raising `ValueError` for any other combination. -/
def _unpackNetCDFProductName (productname : String) (hasTimeIndex : Bool) :
    Except PyErr ProdElements :=
  let fileExt := (splitext productname.data).2
  let parts := underscoreParts productname
  if parts.length < 7 then
    .error .indexError
  else
    let productParts := hyphenParts productname
    let base : ProdElements :=
      { project := (pyIntercalate ['_'] (parts.take 2)).asString
        product := (productParts.getD 0 []).asString
        productDate := (parts.getD 3 []).asString
        roi := (parts.getD 4 []).asString
        sensor := (parts.getD 5 []).asString
        version := (parts.getD 6 []).asString
        extention := fileExt.asString
        subProduct := none
        timeIndex := none }
    if productParts.length = 1 ∧ hasTimeIndex = false then
      .ok base
    else if productParts.length = 2 then
      if hasTimeIndex then
        .ok { base with timeIndex := some (productParts.getD 1 []).asString }
      else
        .ok { base with subProduct := some (productParts.getD 1 []).asString }
    else if productParts.length = 3 ∧ hasTimeIndex = true then
      .ok { base with
              subProduct := some (productParts.getD 1 []).asString
              timeIndex := some (productParts.getD 2 []).asString }
    else
      .error (.valueError "Incompatible combination of product and time index")

/-- `_packCOGProductName(prodElements)`.

The `parameter` key is read unconditionally (Python would raise `KeyError` if
the caller never set it); `subProduct` and `timeIndex` are tested for Python
truthiness; the result is always given the fixed `.tiff` extension. -/
def _packCOGProductName (e : ProdElements) : Except PyErr String :=
  match e.parameter with
  | none => .error (.keyError "parameter")
  | some param =>
    let productTag :=
      if truthy e.subProduct then
        e.product ++ "-" ++ e.subProduct.getD "" ++ "-" ++ param
      else
        e.product ++ "-" ++ param
    let productTag :=
      if truthy e.timeIndex then productTag ++ "-" ++ e.timeIndex.getD ""
      else productTag
    .ok (e.project ++ "_" ++ productTag ++ "_" ++ e.productDate ++ "_" ++
         e.roi ++ "_" ++ e.sensor ++ "_" ++ e.version ++ ".tiff")

/-- `createCogFileName(inFile, inBand, outBand, hasTimeIndex)`: parse the
input name, set the `parameter` slot to `outBand` when truthy else `inBand`,
and pack. -/
def createCogFileName (inFile : String) (inBand : String)
    (outBand : Option String := none) (hasTimeIndex : Bool := false) :
    Except PyErr String :=
  match _unpackNetCDFProductName inFile hasTimeIndex with
  | .error e => .error e
  | .ok prodElements =>
    let param := if truthy outBand then outBand.getD "" else inBand
    _packCOGProductName { prodElements with parameter := some param }

/-- The `attributeConversion` sub-dictionary of the configuration. -/
structure ConversionSettings where
  history : String
  listEnclosure : String
  listSeparator : String
  removeAttributeLst : List String
deriving DecidableEq, Repr

/-- Prepend a finished metadata entry onto the result of translating the rest
of a dictionary, propagating a raised exception. -/
def consMeta (r : Except PyErr (List (String × PyValue)))
    (entry : String × PyValue) : Except PyErr (List (String × PyValue)) :=
  match r with
  | .error e => .error e
  | .ok metadata => .ok (entry :: metadata)

/-- `_convertFileAttributes(attributeDict, conversionDict, filename)`.

The system date `_today()` is passed in explicitly as `today`.  The helper
`full` is the whole original dictionary, against which `parent_identifier` is
looked up (Python reads `attributeDict["parent_identifier"]`, raising
`KeyError` when the key is absent anywhere in the mapping).  In the `history`
branch the code adds the formatted newline-history suffix to `value` with the
`+` operator: string concatenation, which raises `TypeError` when `value` is
not a `str` (an int, numpy array or list admits no `+` with a `str`). -/
def convertFileAttributesGo (full : List (String × PyValue))
    (conversionDict : ConversionSettings) (filename today : String) :
    List (String × PyValue) → Except PyErr (List (String × PyValue))
  | [] => .ok []
  | (key, value) :: rest =>
    if key ∈ conversionDict.removeAttributeLst then
      convertFileAttributesGo full conversionDict filename today rest
    else if key = "history" then
      let history := pyReplace conversionDict.history "<processDateISO>" today
      let history := pyReplace history "<version>" cogVersion
      match value with
      | .pyStr sv =>
        consMeta (convertFileAttributesGo full conversionDict filename today rest)
          (key, .pyStr (sv ++ "\n" ++ history))
      | .pyInt _ => .error .typeError
      | .npArray _ => .error .typeError
      | .pyList _ => .error .typeError
    else if key = "identifier" then
      match full.find? (fun e => decide (e.1 = "parent_identifier")) with
      | none => .error (.keyError "parent_identifier")
      | some parent =>
        let id0 := (splitext filename.data).1.asString
        let id1 := pyReplace id0 "c_gls_" ""
        consMeta (convertFileAttributesGo full conversionDict filename today rest)
          (key, .pyStr (pyStrOf parent.2 ++ ":" ++ id1))
    else
      consMeta (convertFileAttributesGo full conversionDict filename today rest)
        (key, value)

/-- `_convertFileAttributes`, entry point. -/
def _convertFileAttributes (attributeDict : List (String × PyValue))
    (conversionDict : ConversionSettings) (filename today : String) :
    Except PyErr (List (String × PyValue)) :=
  convertFileAttributesGo attributeDict conversionDict filename today attributeDict

/-- Serialization of a numpy-array attribute value inside
`_convertBandAttributes`: join the elements with `listSeparator`, then wrap in
`listEnclosure` when it has exactly two characters, leave unwrapped when it is
empty, and raise `ValueError` for any other length. -/
def listEnclosureMsg : String :=
  "Attribute conversion parameter listEnclosure must be either two or none characters"

def serializeArray (conversionDict : ConversionSettings) (xs : List Int) :
    Except PyErr String :=
  let lstStr := String.intercalate conversionDict.listSeparator (xs.map toString)
  match conversionDict.listEnclosure.data with
  | [] => .ok lstStr
  | [a, b] => .ok ((a :: lstStr.data ++ [b]).asString)
  | _ => .error (.valueError listEnclosureMsg)

/-- `_convertBandAttributes(attributeDict, conversionDict)`: keys in
`removeAttributeLst` are dropped; a value that is a numpy array is serialized
with `serializeArray` (the first bad-enclosure array raises); every other
value (string, int, or a plain Python list) passes through unchanged. -/
def _convertBandAttributes (attributeDict : List (String × PyValue))
    (conversionDict : ConversionSettings) :
    Except PyErr (List (String × PyValue)) :=
  match attributeDict with
  | [] => .ok []
  | (key, value) :: rest =>
    if key ∈ conversionDict.removeAttributeLst then
      _convertBandAttributes rest conversionDict
    else
      match value with
      | .npArray xs =>
        match serializeArray conversionDict xs with
        | .error e => .error e
        | .ok lstStr =>
          consMeta (_convertBandAttributes rest conversionDict) (key, .pyStr lstStr)
      | .pyStr sv =>
        consMeta (_convertBandAttributes rest conversionDict) (key, .pyStr sv)
      | .pyInt n =>
        consMeta (_convertBandAttributes rest conversionDict) (key, .pyInt n)
      | .pyList ys =>
        consMeta (_convertBandAttributes rest conversionDict) (key, .pyList ys)

/-- A filesystem path, as the pair `os.path.join` builds it from. -/
structure FPath where
  folder : String
  base : String
deriving DecidableEq, Repr

/-- Rendering of a path into the string that appears in command lines. -/
def pathStr (p : FPath) : String := p.folder ++ "/" ++ p.base

/-- Content of a file tracked by the pipeline model: a provenance term — which
command wrote it, and which metadata was stamped onto it.  Two files are
byte-identical exactly when their provenance terms are equal. -/
inductive FData where
  | fromCmd (cmd : String)
  | withMeta (base : FData) (md bmd : List (String × PyValue)) (desc : String)
deriving DecidableEq, Repr

/-- The pipeline-level filesystem: an association of paths to contents. -/
abbrev FS := List (FPath × FData)

/-- Look a path up in the filesystem. -/
def fsGet (fs : FS) (p : FPath) : Option FData :=
  (fs.find? (fun e => decide (e.1 = p))).map (fun e => e.2)

/-- Create or overwrite a file. -/
def fsSet : FS → FPath → FData → FS
  | [], p, d => [(p, d)]
  | (q, e) :: rest, p, d =>
    if q = p then (p, d) :: rest else (q, e) :: fsSet rest p d

/-- Delete a file (no-op when absent; call sites model `os.remove`'s
missing-file error themselves where the source would raise). -/
def fsRemove (fs : FS) (p : FPath) : FS :=
  fs.filter (fun e => decide (e.1 ≠ p))

/-- Does a path exist? -/
def fsHas (fs : FS) (p : FPath) : Bool :=
  (fsGet fs p).isSome

/-- Observable events of a pipeline run: the per-band progress log line, the
skip log line, and each attempted external command. -/
inductive Ev where
  | bandHeader (idx : Nat) (cogFile : String)
  | skippedBand (idx : Nat) (cogFile : String)
  | cmdRun (cmd : String)
deriving DecidableEq, Repr

/-- Pipeline state threaded through a run: the filesystem and the event log. -/
structure PState where
  fs : FS
  events : List Ev
deriving DecidableEq, Repr

/-- One entry of `bandInfoList`. -/
structure BandInfo where
  inBand : String
  outBand : Option String
  resampleMethod : String
  description : String
deriving DecidableEq, Repr

/-- The configuration dictionary consumed by `cogProcessor`. -/
structure CogCfg where
  tmpFolder : String
  outFolder : String
  inFile : FPath
  hasTimeIndex : Bool
  overwriteExistingFiles : Bool
  compressionMethod : String
  cogOverviews : List Nat
  blockSize : Nat
  attributeConversion : ConversionSettings
  bandInfoList : List BandInfo
deriving DecidableEq, Repr

/-- The NetCDF input as the reader library presents it: global attributes and
the per-variable attribute mappings. -/
structure NcFile where
  attrs : List (String × PyValue)
  vars : List (String × List (String × PyValue))
deriving DecidableEq, Repr

/-- `_safeMove` at pipeline granularity (no permission bits at this level):
remove a stale `dst + ".temp"`, copy `src` there, remove a pre-existing `dst`,
rename the temp file onto `dst`, remove `src`. -/
def pipeSafeMove (fs : FS) (src dst : FPath) : Except PyErr FS :=
  let tmpFile : FPath := ⟨dst.folder, dst.base ++ ".temp"⟩
  let fs1 := fsRemove fs tmpFile
  match fsGet fs1 src with
  | none => .error .fileNotFoundError
  | some d =>
    let fs2 := fsSet fs1 tmpFile d
    let fs3 := fsRemove fs2 dst
    let fs4 := fsSet (fsRemove fs3 tmpFile) dst d
    .ok (fsRemove fs4 src)

/-- The overview stage of one band (executed only when `cogOverviews` is
truthy): `gdaladdo -clean` (drops any existing external overview file), then
`gdaladdo -ro` building the overview file, which is registered for cleanup
only after the command succeeded — exactly the source's ordering. -/
def overviewStage (cfg : CogCfg) (env : String → Bool) (resampleMethod : String)
    (tiffFile : FPath) (s : PState) : PState × List FPath × Option PyErr :=
  if cfg.cogOverviews.isEmpty then (s, [], none)
  else
    let ovrFile : FPath := ⟨tiffFile.folder, tiffFile.base ++ ".ovr"⟩
    let cmd2 := "gdaladdo -clean  " ++ pathStr tiffFile
    let s := { s with events := s.events ++ [Ev.cmdRun cmd2] }
    if env cmd2 then
      let s := { s with fs := fsRemove s.fs ovrFile }
      let overviewStr := String.intercalate " " (cfg.cogOverviews.map toString)
      let bs := toString cfg.blockSize
      let cmd3 := "gdaladdo -ro --config GDAL_TIFF_OVR_BLOCKSIZE " ++ bs ++
        " --config COMPRESS_OVERVIEW " ++ cfg.compressionMethod ++ " -r " ++
        resampleMethod ++ " " ++ pathStr tiffFile ++ " " ++ overviewStr
      let s := { s with events := s.events ++ [Ev.cmdRun cmd3] }
      if env cmd3 then
        ({ s with fs := fsSet s.fs ovrFile (.fromCmd cmd3) }, [ovrFile], none)
      else
        (s, [], some .calledProcessError)
    else
      (s, [], some .calledProcessError)

/-- The body of one band after the skip check decided to convert: base
extraction, overviews, metadata conversion and stamping, final COG encode,
and the safe move to the output path.  Returns the new state, the temp files
this band registered in `tempFileList`, and `some e` when an exception
aborted the band (and, in the source, the whole job). -/
def bandConvert (cfg : CogCfg) (env : String → Bool) (today : String)
    (fileAttrs : List (String × PyValue)) (b : BandInfo)
    (battrs : List (String × PyValue)) (cogFile : String) (cogPath : FPath)
    (stem : String) (s : PState) : PState × List FPath × Option PyErr :=
  let tiffFile : FPath := ⟨cfg.tmpFolder, stem ++ "_base.tiff"⟩
  let temps := [tiffFile]
  let srcPath := "NETCDF:\"" ++ pathStr cfg.inFile ++ "\":" ++ b.inBand
  let cmd1 := "gdal_translate -of GTIFF " ++ srcPath ++ " " ++ pathStr tiffFile
  let s := { s with events := s.events ++ [Ev.cmdRun cmd1] }
  if env cmd1 then
    let s := { s with fs := fsSet s.fs tiffFile (.fromCmd cmd1) }
    match overviewStage cfg env b.resampleMethod tiffFile s with
    | (s, tAdd, some e) => (s, temps ++ tAdd, some e)
    | (s, tAdd, none) =>
      let temps := temps ++ tAdd
      match _convertFileAttributes fileAttrs cfg.attributeConversion cogFile today with
      | .error e => (s, temps, some e)
      | .ok metadataDict =>
        match _convertBandAttributes battrs cfg.attributeConversion with
        | .error e => (s, temps, some e)
        | .ok bandMetadataDict =>
          match fsGet s.fs tiffFile with
          | none => (s, temps, some .fileNotFoundError)
          | some d =>
            let md := FData.withMeta d metadataDict bandMetadataDict b.description
            let s := { s with fs := fsSet s.fs tiffFile md }
            let cogTmpFile : FPath := ⟨cfg.tmpFolder, stem ++ ".tmp.tiff"⟩
            let bs := toString cfg.blockSize
            let cmd4 := "gdal_translate -of COG -co COMPRESS=" ++
              cfg.compressionMethod ++ " -co PREDICTOR=YES " ++
              "--config GDAL_TIFF_OVR_BLOCKSIZE " ++ bs ++ " " ++
              pathStr tiffFile ++ " " ++ pathStr cogTmpFile
            let s := { s with events := s.events ++ [Ev.cmdRun cmd4] }
            if env cmd4 then
              let s := { s with fs := fsSet s.fs cogTmpFile (.fromCmd cmd4) }
              match pipeSafeMove s.fs cogTmpFile cogPath with
              | .error e => (s, temps, some e)
              | .ok fs' => ({ s with fs := fs' }, temps, none)
            else
              (s, temps, some .calledProcessError)
  else
    (s, temps, some .calledProcessError)

/-- One full iteration of the band loop: resolve the output name, log the
band header, apply the skip check, and convert when not skipped. -/
def bandStep (cfg : CogCfg) (env : String → Bool) (today : String)
    (fileAttrs : List (String × PyValue)) (idx : Nat) (b : BandInfo)
    (battrs : List (String × PyValue)) (s : PState) :
    PState × List FPath × Option PyErr :=
  match createCogFileName cfg.inFile.base b.inBand b.outBand cfg.hasTimeIndex with
  | .error e => (s, [], some e)
  | .ok cogFile =>
    let cogPath : FPath := ⟨cfg.outFolder, cogFile⟩
    let stem := (splitext cogFile.data).1.asString
    let s1 : PState := { s with events := s.events ++ [Ev.bandHeader idx cogFile] }
    if !cfg.overwriteExistingFiles && fsHas s1.fs cogPath then
      ({ s1 with events := s1.events ++ [Ev.skippedBand idx cogFile] }, [], none)
    else
      bandConvert cfg env today fileAttrs b battrs cogFile cogPath stem s1

/-- Python `enumerate` starting at `k`. -/
def enumFrom (k : Nat) : List α → List (Nat × α)
  | [] => []
  | x :: xs => (k, x) :: enumFrom (k + 1) xs

/-- The band loop: bands strictly in configured order; a raised exception
stops the loop (carrying the state reached so far, as the real filesystem
would persist). -/
def processBands (cfg : CogCfg) (env : String → Bool) (today : String)
    (fileAttrs : List (String × PyValue)) :
    List (Nat × BandInfo × List (String × PyValue)) → PState → List FPath →
    PState × List FPath × Option PyErr
  | [], s, acc => (s, acc, none)
  | (idx, b, battrs) :: rest, s, acc =>
    match bandStep cfg env today fileAttrs idx b battrs s with
    | (s', temps, some e) => (s', acc ++ temps, some e)
    | (s', temps, none) => processBands cfg env today fileAttrs rest s' (acc ++ temps)

/-- The final cleanup loop: `os.remove` on each entry of `tempFileList`,
raising `FileNotFoundError` when an entry is missing. -/
def removeTempFiles : List FPath → FS → FS × Option PyErr
  | [], fs => (fs, none)
  | p :: rest, fs =>
    if fsHas fs p then removeTempFiles rest (fsRemove fs p)
    else (fs, some .fileNotFoundError)

/-- The up-front check and attribute extraction: every configured `inBand`
must be a variable of the input file, else `ValueError` aborts the job before
any band processing begins. -/
def gatherBandAttrs (nc : NcFile) :
    List BandInfo → Except PyErr (List (BandInfo × List (String × PyValue)))
  | [] => .ok []
  | b :: rest =>
    match nc.vars.find? (fun e => decide (e.1 = b.inBand)) with
    | some v =>
      match gatherBandAttrs nc rest with
      | .error e => .error e
      | .ok tail => .ok ((b, v.2) :: tail)
    | none => .error (.valueError (b.inBand ++ " not found"))

/-- `cogProcessor(cogCfgDict)`: attribute extraction and band check, the band
loop, then temp-file cleanup (reached only when no exception was raised).
Returns the final state, the accumulated `tempFileList`, and the outcome. -/
def cogProcessorFull (cfg : CogCfg) (nc : NcFile) (env : String → Bool)
    (today : String) (fs0 : FS) : PState × List FPath × Option PyErr :=
  match gatherBandAttrs nc cfg.bandInfoList with
  | .error e => (⟨fs0, []⟩, [], some e)
  | .ok bl =>
    match processBands cfg env today nc.attrs
        ((enumFrom 0 bl).map (fun e => (e.1, e.2.1, e.2.2))) ⟨fs0, []⟩ [] with
    | (s, temps, some e) => (s, temps, some e)
    | (s, temps, none) =>
      let r := removeTempFiles temps s.fs
      ({ s with fs := r.1 }, temps, r.2)

/-- `cogProcessor` without the internal temp list: final state and outcome. -/
def cogProcessor (cfg : CogCfg) (nc : NcFile) (env : String → Bool)
    (today : String) (fs0 : FS) : PState × Option PyErr :=
  let r := cogProcessorFull cfg nc env today fs0
  (r.1, r.2.2)

/-- File content in the fine-grained `_safeMove` model: either a completely
written value or a truncated (partially written) copy of a value. -/
inductive FContent where
  | complete (v : Nat)
  | truncated (ofVal : Nat)
deriving DecidableEq, Repr

/-- A file together with its permission bits. -/
structure FileSt where
  content : FContent
  mode : Nat
deriving DecidableEq, Repr

/-- The filesystem observed by `_safeMove`: paths are plain strings here. -/
abbrev FS2 := List (String × FileSt)

/-- Look a path up. -/
def fs2Get (fs : FS2) (p : String) : Option FileSt :=
  (fs.find? (fun e => decide (e.1 = p))).map (fun e => e.2)

/-- Create or overwrite a file. -/
def fs2Set : FS2 → String → FileSt → FS2
  | [], p, d => [(p, d)]
  | (q, e) :: rest, p, d =>
    if q = p then (p, d) :: rest else (q, e) :: fs2Set rest p d

/-- Delete a file. -/
def fs2Remove (fs : FS2) (p : String) : FS2 :=
  fs.filter (fun e => decide (e.1 ≠ p))

/-- The value a content carries (the value being or having been written). -/
def FContent.val : FContent → Nat
  | .complete v => v
  | .truncated v => v

/-- The successive filesystem states of one `_safeMove(src, dst, mod)` call,
one entry per atomic step an observer (or an interruption) can see:
initial; stale-temp removal; copy started (truncated temp file); copy
finished; pre-existing `dst` removed; rename of the temp file onto `dst`;
`chmod`; removal of `src`.  When `src` is missing the copy raises and only
the first two states exist. -/
def safeMoveStates (src dst : String) (mod : Nat) (fs0 : FS2) : List FS2 :=
  let tmpFile := dst ++ ".temp"
  let s1 := fs2Remove fs0 tmpFile
  match fs2Get s1 src with
  | none => [fs0, s1]
  | some d =>
    let s2 := fs2Set s1 tmpFile ⟨.truncated d.content.val, d.mode⟩
    let s3 := fs2Set s2 tmpFile d
    let s4 := fs2Remove s3 dst
    let s5 := fs2Set (fs2Remove s4 tmpFile) dst d
    let s6 :=
      match fs2Get s5 dst with
      | some e => fs2Set s5 dst ⟨e.content, mod⟩
      | none => s5
    let s7 := fs2Remove s6 src
    [fs0, s1, s2, s3, s4, s5, s6, s7]

/-- `_safeMove(src, dst, mod)`: the final filesystem on success, an error when
the copy source is missing. -/
def _safeMove (src dst : String) (mod : Nat := 0o644) (fs0 : FS2) :
    Except PyErr FS2 :=
  match (safeMoveStates src dst mod fs0).getLast? with
  | some fsEnd =>
    if (safeMoveStates src dst mod fs0).length = 8 then .ok fsEnd
    else .error .fileNotFoundError
  | none => .error .fileNotFoundError

/-- The part-count / `hasTimeIndex` combinations the parse table accepts. -/
def validCombo (k : Nat) (hasTimeIndex : Bool) : Bool :=
  (k == 1 && !hasTimeIndex) || k == 2 || (k == 3 && hasTimeIndex)

/-- Where Pack re-inserts the parameter into the third segment's hyphen
parts: `-p` goes after `product[-subProduct]` and before the `timeIndex`
part, which is the last part exactly when `hasTimeIndex` holds. -/
def insertParamParts (tparts : List (List Char)) (hasTimeIndex : Bool)
    (p : List Char) : List (List Char) :=
  if hasTimeIndex then tparts.dropLast ++ [p, tparts.getLast?.getD []]
  else tparts ++ [p]

/-- Is this event the progress-log line of band `i`? -/
def isBandHeader (i : Nat) : Ev → Bool
  | .bandHeader j _ => j == i
  | _ => false

/-- Is this event the skip-log line of band `i`? -/
def isSkipped (i : Nat) : Ev → Bool
  | .skippedBand j _ => j == i
  | _ => false

/-- Is this event an external-command execution? -/
def isCmdRun : Ev → Bool
  | .cmdRun _ => true
  | _ => false

/-- A two-band job used to exercise the pipeline concretely. -/
def cfgAbort : CogCfg :=
  { tmpFolder := "T", outFolder := "O",
    inFile := ⟨"I", "a_b_P_d_r_s_v.nc"⟩,
    hasTimeIndex := false, overwriteExistingFiles := false,
    compressionMethod := "DEFLATE", cogOverviews := [2, 4], blockSize := 512,
    attributeConversion := ⟨"hist", "", ",", []⟩,
    bandInfoList := [⟨"b1", none, "near", "d1"⟩, ⟨"b2", none, "near", "d2"⟩] }

/-- The NetCDF input matching `cfgAbort`. -/
def ncAbort : NcFile := ⟨[], [("b1", []), ("b2", [])]⟩

/-- The base-extraction command of `cfgAbort`'s first band. -/
def cmdAbort1 : String :=
  "gdal_translate -of GTIFF NETCDF:\"I/a_b_P_d_r_s_v.nc\":b1 T/a_b_P-b1_d_r_s_v_base.tiff"

/-- The base-extraction command of `cfgAbort`'s second band. -/
def cmdAbort2 : String :=
  "gdal_translate -of GTIFF NETCDF:\"I/a_b_P_d_r_s_v.nc\":b2 T/a_b_P-b2_d_r_s_v_base.tiff"

/-- An environment in which exactly the first band's base extraction fails. -/
def envAbort1 : String → Bool := fun c => !(c == cmdAbort1)

/-- An environment in which exactly the second band's base extraction fails. -/
def envAbort2 : String → Bool := fun c => !(c == cmdAbort2)

/-- An environment in which every external command succeeds. -/
def envAll : String → Bool := fun _ => true

/-- A job whose temporary and output folders coincide and whose second band's
output filename collides with the first band's temporary base image. -/
def cfgCollide : CogCfg :=
  { tmpFolder := "F", outFolder := "F",
    inFile := ⟨"I", "a_b_P_base_base_base_base.nc"⟩,
    hasTimeIndex := false, overwriteExistingFiles := false,
    compressionMethod := "DEFLATE", cogOverviews := [], blockSize := 512,
    attributeConversion := ⟨"hist", "", ",", []⟩,
    bandInfoList := [⟨"b1", some "B", "near", "d1"⟩,
                     ⟨"b2", some "B_base", "near", "d2"⟩] }

/-- The NetCDF input matching `cfgCollide`. -/
def ncCollide : NcFile := ⟨[], [("b1", []), ("b2", [])]⟩

/-! ## Shared helper lemmas -/

lemma consMeta_ok_iff (r : Except PyErr (List (String × PyValue)))
    (entry : String × PyValue) (m : List (String × PyValue)) :
    consMeta r entry = .ok m ↔ ∃ m', r = .ok m' ∧ m = entry :: m' := by
  cases r <;> simp [consMeta, eq_comm]

lemma consMeta_error_iff (r : Except PyErr (List (String × PyValue)))
    (entry : String × PyValue) (e : PyErr) :
    consMeta r entry = .error e ↔ r = .error e := by
  cases r <;> simp [consMeta]

lemma serializeArray_pair (cv : ConversionSettings) (a b : Char) (xs : List Int)
    (h : cv.listEnclosure.data = [a, b]) :
    serializeArray cv xs =
      .ok ((a :: (String.intercalate cv.listSeparator (xs.map toString)).data
            ++ [b]).asString) := by
  simp [serializeArray, h]

lemma serializeArray_nil (cv : ConversionSettings) (xs : List Int)
    (h : cv.listEnclosure.data = []) :
    serializeArray cv xs =
      .ok (String.intercalate cv.listSeparator (xs.map toString)) := by
  simp [serializeArray, h]

lemma serializeArray_badLen (cv : ConversionSettings) (xs : List Int)
    (h0 : cv.listEnclosure.length ≠ 0) (h2 : cv.listEnclosure.length ≠ 2) :
    serializeArray cv xs = .error (.valueError listEnclosureMsg) := by
  have hlen : cv.listEnclosure.length = cv.listEnclosure.data.length := rfl
  rcases hd : cv.listEnclosure.data with _ | ⟨a, _ | ⟨b, _ | ⟨c, t⟩⟩⟩
  · rw [hd] at hlen; simp [hlen] at h0
  · simp [serializeArray, hd]
  · rw [hd] at hlen; simp [hlen] at h2
  · simp [serializeArray, hd]

lemma convertBand_mem_of_ok (d : List (String × PyValue))
    (cv : ConversionSettings) (m : List (String × PyValue))
    (hok : _convertBandAttributes d cv = .ok m) (k : String) (xs : List Int)
    (s0 : String) (hmem : (k, PyValue.npArray xs) ∈ d)
    (hnrem : k ∉ cv.removeAttributeLst)
    (hser : serializeArray cv xs = .ok s0) :
    (k, PyValue.pyStr s0) ∈ m := by
  induction d generalizing m with
  | nil => simp at hmem
  | cons hd tl ih =>
    obtain ⟨key, value⟩ := hd
    by_cases hrem : key ∈ cv.removeAttributeLst
    · rcases List.mem_cons.mp hmem with hh | ht
      · obtain ⟨hk, hv⟩ := Prod.mk.injEq .. |>.mp hh
        exact absurd (hk ▸ hrem) hnrem
      · rw [_convertBandAttributes.eq_def] at hok
        simp only [hrem, if_pos] at hok
        exact ih _ hok ht
    · cases value with
      | npArray ys =>
        rw [_convertBandAttributes.eq_def] at hok
        simp only [hrem, if_neg, not_false_iff] at hok
        rcases hsy : serializeArray cv ys with e | sy <;> rw [hsy] at hok
        · cases hok
        · obtain ⟨m', hm', rfl⟩ := (consMeta_ok_iff ..).mp hok
          rcases List.mem_cons.mp hmem with hh | ht
          · obtain ⟨hk, hv⟩ := Prod.mk.injEq .. |>.mp hh
            obtain rfl : xs = ys := by cases hv; rfl
            subst hk
            rw [hser] at hsy
            cases hsy
            exact List.mem_cons_self ..
          · exact List.mem_cons_of_mem _ (ih _ hm' ht)
      | pyStr sv =>
        rw [_convertBandAttributes.eq_def] at hok
        simp only [hrem, if_neg, not_false_iff] at hok
        obtain ⟨m', hm', rfl⟩ := (consMeta_ok_iff ..).mp hok
        rcases List.mem_cons.mp hmem with hh | ht
        · cases hh
        · exact List.mem_cons_of_mem _ (ih _ hm' ht)
      | pyInt n =>
        rw [_convertBandAttributes.eq_def] at hok
        simp only [hrem, if_neg, not_false_iff] at hok
        obtain ⟨m', hm', rfl⟩ := (consMeta_ok_iff ..).mp hok
        rcases List.mem_cons.mp hmem with hh | ht
        · cases hh
        · exact List.mem_cons_of_mem _ (ih _ hm' ht)
      | pyList ys =>
        rw [_convertBandAttributes.eq_def] at hok
        simp only [hrem, if_neg, not_false_iff] at hok
        obtain ⟨m', hm', rfl⟩ := (consMeta_ok_iff ..).mp hok
        rcases List.mem_cons.mp hmem with hh | ht
        · cases hh
        · exact List.mem_cons_of_mem _ (ih _ hm' ht)

lemma convertBand_error_of_badEnc (d : List (String × PyValue))
    (cv : ConversionSettings) (k : String) (xs : List Int)
    (h0 : cv.listEnclosure.length ≠ 0) (h2 : cv.listEnclosure.length ≠ 2)
    (hmem : (k, PyValue.npArray xs) ∈ d) (hnrem : k ∉ cv.removeAttributeLst) :
    _convertBandAttributes d cv = .error (.valueError listEnclosureMsg) := by
  induction d with
  | nil => simp at hmem
  | cons hd tl ih =>
    obtain ⟨key, value⟩ := hd
    by_cases hrem : key ∈ cv.removeAttributeLst
    · rcases List.mem_cons.mp hmem with hh | ht
      · obtain ⟨hk, hv⟩ := Prod.mk.injEq .. |>.mp hh
        exact absurd (hk ▸ hrem) hnrem
      · rw [_convertBandAttributes.eq_def]
        simp only [hrem, if_pos]
        exact ih ht
    · cases value with
      | npArray ys =>
        rw [_convertBandAttributes.eq_def]
        simp only [hrem, if_neg, not_false_iff]
        rw [serializeArray_badLen cv ys h0 h2]
      | pyStr sv =>
        rcases List.mem_cons.mp hmem with hh | ht
        · cases hh
        · rw [_convertBandAttributes.eq_def]
          simp only [hrem, if_neg, not_false_iff]
          rw [ih ht, consMeta]
      | pyInt n =>
        rcases List.mem_cons.mp hmem with hh | ht
        · cases hh
        · rw [_convertBandAttributes.eq_def]
          simp only [hrem, if_neg, not_false_iff]
          rw [ih ht, consMeta]
      | pyList ys =>
        rcases List.mem_cons.mp hmem with hh | ht
        · cases hh
        · rw [_convertBandAttributes.eq_def]
          simp only [hrem, if_neg, not_false_iff]
          rw [ih ht, consMeta]

lemma convertBand_noArrays (d : List (String × PyValue))
    (cv : ConversionSettings)
    (hno : ∀ (k : String) (xs : List Int), (k, PyValue.npArray xs) ∉ d) :
    _convertBandAttributes d cv =
      .ok (d.filter (fun e => decide (e.1 ∉ cv.removeAttributeLst))) := by
  induction d with
  | nil => rfl
  | cons hd tl ih =>
    obtain ⟨key, value⟩ := hd
    have hnoTl : ∀ (k : String) (xs : List Int), (k, PyValue.npArray xs) ∉ tl := by
      intro k xs hmem
      exact hno k xs (List.mem_cons_of_mem _ hmem)
    by_cases hrem : key ∈ cv.removeAttributeLst
    · rw [_convertBandAttributes.eq_def]
      simp only [hrem, if_pos]
      rw [ih hnoTl]
      congr 1
      simp [List.filter_cons, hrem]
    · cases value with
      | npArray ys => exact absurd (List.mem_cons_self ..) (hno key ys)
      | pyStr sv =>
        rw [_convertBandAttributes.eq_def]
        simp only [hrem, if_neg, not_false_iff]
        rw [ih hnoTl, consMeta]
        congr 1
        simp [List.filter_cons, hrem]
      | pyInt n =>
        rw [_convertBandAttributes.eq_def]
        simp only [hrem, if_neg, not_false_iff]
        rw [ih hnoTl, consMeta]
        congr 1
        simp [List.filter_cons, hrem]
      | pyList ys =>
        rw [_convertBandAttributes.eq_def]
        simp only [hrem, if_neg, not_false_iff]
        rw [ih hnoTl, consMeta]
        congr 1
        simp [List.filter_cons, hrem]

lemma convertBand_error_implies_array (d : List (String × PyValue))
    (cv : ConversionSettings) (e : PyErr)
    (herr : _convertBandAttributes d cv = .error e) :
    ∃ (k : String) (xs : List Int),
      (k, PyValue.npArray xs) ∈ d ∧ k ∉ cv.removeAttributeLst := by
  induction d with
  | nil => cases herr
  | cons hd tl ih =>
    obtain ⟨key, value⟩ := hd
    by_cases hrem : key ∈ cv.removeAttributeLst
    · rw [_convertBandAttributes.eq_def] at herr
      simp only [hrem, if_pos] at herr
      obtain ⟨k, xs, hmem, hk⟩ := ih herr
      exact ⟨k, xs, List.mem_cons_of_mem _ hmem, hk⟩
    · cases value with
      | npArray ys => exact ⟨key, ys, List.mem_cons_self .., hrem⟩
      | pyStr sv =>
        rw [_convertBandAttributes.eq_def] at herr
        simp only [hrem, if_neg, not_false_iff] at herr
        obtain ⟨k, xs, hmem, hk⟩ := ih ((consMeta_error_iff ..).mp herr)
        exact ⟨k, xs, List.mem_cons_of_mem _ hmem, hk⟩
      | pyInt n =>
        rw [_convertBandAttributes.eq_def] at herr
        simp only [hrem, if_neg, not_false_iff] at herr
        obtain ⟨k, xs, hmem, hk⟩ := ih ((consMeta_error_iff ..).mp herr)
        exact ⟨k, xs, List.mem_cons_of_mem _ hmem, hk⟩
      | pyList ys =>
        rw [_convertBandAttributes.eq_def] at herr
        simp only [hrem, if_neg, not_false_iff] at herr
        obtain ⟨k, xs, hmem, hk⟩ := ih ((consMeta_error_iff ..).mp herr)
        exact ⟨k, xs, List.mem_cons_of_mem _ hmem, hk⟩

lemma convertFileGo_ok_of_parent (full : List (String × PyValue))
    (cv : ConversionSettings) (fn today : String) (pv : String × PyValue)
    (hp : full.find? (fun e => decide (e.1 = "parent_identifier")) = some pv) :
    ∀ l : List (String × PyValue),
      (∀ w, ("history", w) ∈ l → "history" ∉ cv.removeAttributeLst →
        ∃ s, w = PyValue.pyStr s) →
      ∃ m,
      convertFileAttributesGo full cv fn today l = .ok m ∧
      ∀ v : PyValue, ("identifier", v) ∈ l →
        "identifier" ∉ cv.removeAttributeLst →
        ("identifier", PyValue.pyStr (pyStrOf pv.2 ++ ":" ++
          pyReplace (splitext fn.data).1.asString "c_gls_" "")) ∈ m := by
  intro l
  induction l with
  | nil => exact fun _ => ⟨[], rfl, by simp⟩
  | cons hd tl ih =>
    intro hh
    obtain ⟨m', hm', hmem'⟩ :=
      ih (fun w hw hnrem => hh w (List.mem_cons_of_mem _ hw) hnrem)
    obtain ⟨key, value⟩ := hd
    by_cases hrem : key ∈ cv.removeAttributeLst
    · refine ⟨m', ?_, ?_⟩
      · rw [convertFileAttributesGo.eq_def]
        simp only [hrem, if_pos]
        exact hm'
      · intro v hmem hnrem
        rcases List.mem_cons.mp hmem with hh2 | ht
        · obtain ⟨hk, hv⟩ := Prod.mk.injEq .. |>.mp hh2
          exact absurd (hk ▸ hrem) hnrem
        · exact hmem' v ht hnrem
    · by_cases hhist : key = "history"
      · subst hhist
        obtain ⟨s, rfl⟩ := hh value (List.mem_cons_self ..) hrem
        refine ⟨("history", PyValue.pyStr (s ++ "\n" ++
            pyReplace (pyReplace cv.history "<processDateISO>" today)
              "<version>" cogVersion)) :: m', ?_, ?_⟩
        · rw [convertFileAttributesGo.eq_def]
          simp [hrem, hm', consMeta]
        · intro v hmem hnrem
          rcases List.mem_cons.mp hmem with hh2 | ht
          · obtain ⟨hk, hv⟩ := Prod.mk.injEq .. |>.mp hh2
            exact absurd hk (by decide)
          · exact List.mem_cons_of_mem _ (hmem' v ht hnrem)
      · by_cases hid : key = "identifier"
        · subst hid
          refine ⟨("identifier", PyValue.pyStr (pyStrOf pv.2 ++ ":" ++
              pyReplace (splitext fn.data).1.asString "c_gls_" "")) :: m', ?_, ?_⟩
          · rw [convertFileAttributesGo.eq_def]
            simp [hrem, hp, hm', consMeta]
          · intro v hmem hnrem
            exact List.mem_cons_self ..
        · refine ⟨(key, value) :: m', ?_, ?_⟩
          · rw [convertFileAttributesGo.eq_def]
            simp [hrem, hhist, hid, hm', consMeta]
          · intro v hmem hnrem
            rcases List.mem_cons.mp hmem with hh | ht
            · obtain ⟨hk, hv⟩ := Prod.mk.injEq .. |>.mp hh
              exact absurd hk.symm hid
            · exact List.mem_cons_of_mem _ (hmem' v ht hnrem)

lemma convertFileGo_err_of_no_parent (full : List (String × PyValue))
    (cv : ConversionSettings) (fn today : String)
    (hp : full.find? (fun e => decide (e.1 = "parent_identifier")) = none) :
    ∀ (l : List (String × PyValue)) (v : PyValue),
      (∀ w, ("history", w) ∈ l → "history" ∉ cv.removeAttributeLst →
        ∃ s, w = PyValue.pyStr s) →
      ("identifier", v) ∈ l →
      "identifier" ∉ cv.removeAttributeLst →
      convertFileAttributesGo full cv fn today l =
        .error (.keyError "parent_identifier") := by
  intro l
  induction l with
  | nil => intro v _ h; simp at h
  | cons hd tl ih =>
    intro v hhs hmem hnrem
    have hhs' : ∀ w, ("history", w) ∈ tl → "history" ∉ cv.removeAttributeLst →
        ∃ s, w = PyValue.pyStr s :=
      fun w hw h2 => hhs w (List.mem_cons_of_mem _ hw) h2
    obtain ⟨key, value⟩ := hd
    by_cases hrem : key ∈ cv.removeAttributeLst
    · have ht : ("identifier", v) ∈ tl := by
        rcases List.mem_cons.mp hmem with hh | ht
        · obtain ⟨hk, hv⟩ := Prod.mk.injEq .. |>.mp hh
          exact absurd (hk ▸ hrem) hnrem
        · exact ht
      rw [convertFileAttributesGo.eq_def]
      simp only [hrem, if_pos]
      exact ih v hhs' ht hnrem
    · by_cases hhist : key = "history"
      · subst hhist
        obtain ⟨s, rfl⟩ := hhs value (List.mem_cons_self ..) hrem
        have ht : ("identifier", v) ∈ tl := by
          rcases List.mem_cons.mp hmem with hh | ht
          · obtain ⟨hk, hv⟩ := Prod.mk.injEq .. |>.mp hh
            exact absurd hk (by decide)
          · exact ht
        rw [convertFileAttributesGo.eq_def]
        simp [hrem, ih v hhs' ht hnrem, consMeta]
      · by_cases hid : key = "identifier"
        · subst hid
          rw [convertFileAttributesGo.eq_def]
          simp [hrem, hp]
        · have ht : ("identifier", v) ∈ tl := by
            rcases List.mem_cons.mp hmem with hh | ht
            · obtain ⟨hk, hv⟩ := Prod.mk.injEq .. |>.mp hh
              exact absurd hk.symm hid
            · exact ht
          rw [convertFileAttributesGo.eq_def]
          simp [hrem, hhist, hid, ih v hhs' ht hnrem, consMeta]

/-! ## Claim theorems: attribute translation -/

/-- C8: `_convertBandAttributes` (TranslateBandAttributes), for every key not
in `removeAttributeLst` whose value is a numpy numeric sequence, joins the
elements with `listSeparator` and wraps the result in `listEnclosure` when the
enclosure has exactly two characters, leaves it unwrapped when the enclosure
is empty, and raises the ConfigurationError (`ValueError`) for any other
enclosure length; in particular `[1,2,3]` with separator `,` and enclosure of
two braces yields the brace-wrapped string, with empty enclosure the bare
joined string, and a 3-character enclosure raises. -/
theorem bandAttr_serialization_spec :
    (∀ (d : List (String × PyValue)) (cv : ConversionSettings) (k : String)
        (xs : List Int) (m : List (String × PyValue)) (a b : Char),
        cv.listEnclosure.data = [a, b] →
        _convertBandAttributes d cv = .ok m →
        (k, PyValue.npArray xs) ∈ d → k ∉ cv.removeAttributeLst →
        (k, PyValue.pyStr ((a ::
          (String.intercalate cv.listSeparator (xs.map toString)).data
          ++ [b]).asString)) ∈ m) ∧
    (∀ (d : List (String × PyValue)) (cv : ConversionSettings) (k : String)
        (xs : List Int) (m : List (String × PyValue)),
        cv.listEnclosure = "" →
        _convertBandAttributes d cv = .ok m →
        (k, PyValue.npArray xs) ∈ d → k ∉ cv.removeAttributeLst →
        (k, PyValue.pyStr
          (String.intercalate cv.listSeparator (xs.map toString))) ∈ m) ∧
    (∀ (d : List (String × PyValue)) (cv : ConversionSettings) (k : String)
        (xs : List Int),
        cv.listEnclosure.length ≠ 0 → cv.listEnclosure.length ≠ 2 →
        (k, PyValue.npArray xs) ∈ d → k ∉ cv.removeAttributeLst →
        _convertBandAttributes d cv = .error (.valueError listEnclosureMsg)) ∧
    _convertBandAttributes [("flag", .npArray [1, 2, 3])] ⟨"", "\x7b\x7d", ",", []⟩ =
      .ok [("flag", .pyStr "\x7b1,2,3\x7d")] ∧
    _convertBandAttributes [("flag", .npArray [1, 2, 3])] ⟨"", "", ",", []⟩ =
      .ok [("flag", .pyStr "1,2,3")] ∧
    _convertBandAttributes [("flag", .npArray [1, 2, 3])] ⟨"", "[-]", ",", []⟩ =
      .error (.valueError listEnclosureMsg) := by
  refine ⟨?_, ?_, ?_, by decide, by decide, by decide⟩
  · intro d cv k xs m a b henc hok hmem hnrem
    exact convertBand_mem_of_ok d cv m hok k xs _ hmem hnrem
      (serializeArray_pair cv a b xs henc)
  · intro d cv k xs m henc hok hmem hnrem
    have hdat : cv.listEnclosure.data = [] := by rw [henc]
    exact convertBand_mem_of_ok d cv m hok k xs _ hmem hnrem
      (serializeArray_nil cv xs hdat)
  · intro d cv k xs h0 h2 hmem hnrem
    exact convertBand_error_of_badEnc d cv k xs h0 h2 hmem hnrem

/-- Witness for C8: the enclosure-length error, realized on the concrete
three-character enclosure. -/
theorem bandAttr_serialization_spec_witness :
    _convertBandAttributes [("flag", .npArray [1, 2, 3])] ⟨"", "abc", ",", []⟩ =
      .error (.valueError listEnclosureMsg) :=
  bandAttr_serialization_spec.2.2.1 [("flag", .npArray [1, 2, 3])]
    ⟨"", "abc", ",", []⟩ "flag" [1, 2, 3] (by decide) (by decide) (by decide)
    (by decide)

/-- C9 (counterexample): a non-string `history` value makes the whole
translation raise `TypeError` — string concatenation with the history suffix
fails — before the `identifier` entry is reached.  With `parent_identifier`
absent the result is the `TypeError`, not the claimed AttributeMappingError
(`KeyError`); with `parent_identifier` present the function raises instead of
returning a mapping with the rewritten `identifier`. -/
theorem fileAttr_identifier_cex :
    _convertFileAttributes
        [("history", .pyInt 5), ("identifier", .pyStr "x")]
        ⟨"h", "", "", []⟩ "c_gls_F.tiff" "2026-10-12" =
      .error .typeError ∧
    _convertFileAttributes
        [("history", .pyInt 5), ("identifier", .pyStr "x")]
        ⟨"h", "", "", []⟩ "c_gls_F.tiff" "2026-10-12" ≠
      .error (.keyError "parent_identifier") ∧
    _convertFileAttributes
        [("history", .pyInt 5), ("parent_identifier", .pyStr "p"),
         ("identifier", .pyStr "x")]
        ⟨"h", "", "", []⟩ "c_gls_F.tiff" "2026-10-12" =
      .error .typeError := by
  decide

/-- C9 (amended): `_convertFileAttributes` (TranslateFileAttributes), when the
key `identifier` is processed (not removed), replaces its value with the value
of the `parent_identifier` attribute, a colon, and the output filename stem
with every occurrence of the source-collection token `c_gls_` removed; and it
raises the AttributeMappingError (`KeyError`) whenever `identifier` is
processed but `parent_identifier` is absent — provided every non-removed
`history` value in the mapping is a string, so that no `TypeError` from the
history concatenation pre-empts the result (see the counterexample). -/
theorem fileAttr_identifier_spec :
    (∀ (d : List (String × PyValue)) (cv : ConversionSettings)
        (fn today : String) (v : PyValue) (pv : String × PyValue),
        (∀ w, ("history", w) ∈ d → "history" ∉ cv.removeAttributeLst →
          ∃ s, w = PyValue.pyStr s) →
        ("identifier", v) ∈ d → "identifier" ∉ cv.removeAttributeLst →
        d.find? (fun e => decide (e.1 = "parent_identifier")) = some pv →
        ∃ m, _convertFileAttributes d cv fn today = .ok m ∧
          ("identifier", PyValue.pyStr (pyStrOf pv.2 ++ ":" ++
            pyReplace (splitext fn.data).1.asString "c_gls_" "")) ∈ m) ∧
    (∀ (d : List (String × PyValue)) (cv : ConversionSettings)
        (fn today : String) (v : PyValue),
        (∀ w, ("history", w) ∈ d → "history" ∉ cv.removeAttributeLst →
          ∃ s, w = PyValue.pyStr s) →
        ("identifier", v) ∈ d → "identifier" ∉ cv.removeAttributeLst →
        d.find? (fun e => decide (e.1 = "parent_identifier")) = none →
        _convertFileAttributes d cv fn today =
          .error (.keyError "parent_identifier")) := by
  constructor
  · intro d cv fn today v pv hhs hmem hnrem hp
    obtain ⟨m, hm, hin⟩ := convertFileGo_ok_of_parent d cv fn today pv hp d hhs
    exact ⟨m, hm, hin v hmem hnrem⟩
  · intro d cv fn today v hhs hmem hnrem hp
    exact convertFileGo_err_of_no_parent d cv fn today hp d v hhs hmem hnrem

/-- Witness for C9: a mapping with `identifier`, no non-removed `history`
entry, and no `parent_identifier` raises the missing-key error. -/
theorem fileAttr_identifier_spec_witness :
    _convertFileAttributes [("identifier", .pyStr "x")] ⟨"", "", "", []⟩
      "c_gls_F.tiff" "2026-10-12" = .error (.keyError "parent_identifier") :=
  fileAttr_identifier_spec.2 [("identifier", .pyStr "x")] ⟨"", "", "", []⟩
    "c_gls_F.tiff" "2026-10-12" (.pyStr "x")
    (by intro w hw; simp at hw) (by decide) (by decide) (by decide)

/-- C10: in `_convertBandAttributes` only numpy-array values are treated as
numeric sequences: a mapping with no numpy-array values translates without
error — every non-removed entry, including a plain Python list of numbers,
passes through unchanged — whatever the `listEnclosure` is; and an error can
only arise when a non-removed numpy-array value is present. -/
theorem bandAttr_ndarray_only_spec :
    (∀ (d : List (String × PyValue)) (cv : ConversionSettings),
        (∀ (k : String) (xs : List Int), (k, PyValue.npArray xs) ∉ d) →
        _convertBandAttributes d cv =
          .ok (d.filter (fun e => decide (e.1 ∉ cv.removeAttributeLst)))) ∧
    (∀ (d : List (String × PyValue)) (cv : ConversionSettings) (e : PyErr),
        _convertBandAttributes d cv = .error e →
        ∃ (k : String) (xs : List Int),
          (k, PyValue.npArray xs) ∈ d ∧ k ∉ cv.removeAttributeLst) ∧
    _convertBandAttributes [("vals", .pyList [1, 2, 3])] ⟨"", "[-]", ",", []⟩ =
      .ok [("vals", .pyList [1, 2, 3])] := by
  refine ⟨?_, ?_, by decide⟩
  · intro d cv hno
    exact convertBand_noArrays d cv hno
  · intro d cv e herr
    exact convertBand_error_implies_array d cv e herr

/-- Witness for C10: a mapping holding only a plain Python list passes through
unchanged even with an invalid (three-character) enclosure. -/
theorem bandAttr_ndarray_only_spec_witness :
    _convertBandAttributes [("vals", .pyList [4, 5])] ⟨"", "(-)", ";", []⟩ =
      .ok ([("vals", PyValue.pyList [4, 5])].filter
        (fun e => decide (e.1 ∉ ([] : List String)))) :=
  bandAttr_ndarray_only_spec.1 [("vals", .pyList [4, 5])] ⟨"", "(-)", ";", []⟩
    (by intro k xs h; simp at h)

/-! ## Claim theorems: product-name codec -/

/-- C4 (counterexample): the claim says Parse fails exactly when the stem does
not have exactly 7 underscore segments; but on a stem with 8 segments (and a
valid third-segment combination) `_unpackNetCDFProductName` succeeds — the
extra trailing segment is silently ignored. -/
theorem parse_grammar_cex :
    (underscoreParts "a_b_c_d_e_f_g_h.nc").length = 8 ∧
    (_unpackNetCDFProductName "a_b_c_d_e_f_g_h.nc" false).isOk = true := by
  decide

/-- C4 (amended): Parse fails (NameGrammarError: `IndexError`/`ValueError`)
exactly when the stem has FEWER than 7 underscore segments or the
hyphen-part-count / `hasTimeIndex` combination falls outside the table
(segments beyond the seventh are ignored); and on every accepted input the
returned elements follow the table: 1 part/no time index gives neither
`subProduct` nor `timeIndex`; 2 parts give `timeIndex := part 1` when
`hasTimeIndex` else `subProduct := part 1`; 3 parts with `hasTimeIndex` give
`subProduct := part 1` and `timeIndex := part 2`. -/
theorem parse_grammar_spec :
    (∀ (s : String) (h : Bool),
      (_unpackNetCDFProductName s h).isOk =
        (decide (7 ≤ (underscoreParts s).length) &&
          validCombo (hyphenParts s).length h)) ∧
    (∀ (s : String) (h : Bool), 7 ≤ (underscoreParts s).length →
      ((hyphenParts s).length = 1 ∧ h = false) ∨ (hyphenParts s).length = 2 ∨
        ((hyphenParts s).length = 3 ∧ h = true) →
      _unpackNetCDFProductName s h = .ok
        { project := (pyIntercalate ['_'] ((underscoreParts s).take 2)).asString
          product := ((hyphenParts s).getD 0 []).asString
          productDate := ((underscoreParts s).getD 3 []).asString
          roi := ((underscoreParts s).getD 4 []).asString
          sensor := ((underscoreParts s).getD 5 []).asString
          version := ((underscoreParts s).getD 6 []).asString
          extention := (splitext s.data).2.asString
          subProduct :=
            if (hyphenParts s).length = 2 ∧ h = false then
              some ((hyphenParts s).getD 1 []).asString
            else if (hyphenParts s).length = 3 then
              some ((hyphenParts s).getD 1 []).asString
            else none
          timeIndex :=
            if (hyphenParts s).length = 2 ∧ h = true then
              some ((hyphenParts s).getD 1 []).asString
            else if (hyphenParts s).length = 3 then
              some ((hyphenParts s).getD 2 []).asString
            else none
          parameter := none }) := by
  constructor
  · intro s h
    by_cases h7 : (underscoreParts s).length < 7
    · have h7' : ¬ 7 ≤ (underscoreParts s).length := by omega
      simp [_unpackNetCDFProductName, h7, h7', Except.isOk, Except.toBool]
    · have h7' : 7 ≤ (underscoreParts s).length := by omega
      rcases hk : (hyphenParts s).length with _ | _ | _ | _ | n <;> cases h <;>
        simp [_unpackNetCDFProductName, h7, h7', hk, validCombo, Except.isOk, Except.toBool]
  · intro s h h7 hcomb
    have h7' : ¬ (underscoreParts s).length < 7 := by omega
    rcases hcomb with ⟨hk1, rfl⟩ | hk2 | ⟨hk3, rfl⟩
    · simp [_unpackNetCDFProductName, h7', hk1]
    · cases h <;> simp [_unpackNetCDFProductName, h7', hk2]
    · simp [_unpackNetCDFProductName, h7', hk3]

/-- Witness for C4: the table case of 3 hyphen parts with a time index, on a
concrete name. -/
theorem parse_grammar_spec_witness :
    _unpackNetCDFProductName "c_gls_F-A-RT0_d_r_s_v.nc" true = .ok
      { project := "c_gls", product := "F", productDate := "d", roi := "r",
        sensor := "s", version := "v", extention := ".nc",
        subProduct := some "A", timeIndex := some "RT0", parameter := none } := by
  have h := parse_grammar_spec.2 "c_gls_F-A-RT0_d_r_s_v.nc" true (by decide)
    (Or.inr (Or.inr ⟨by decide, rfl⟩))
  rw [h]
  decide

/-- C6: Pack builds the output name as
`project_product[-subProduct]-parameter[-timeIndex]_productDate_roi_sensor_version.tiff`
(bracketed parts only when truthy), with the extension always forced to
`.tiff`; in particular the NDVI300 and FAPAR300 examples map as the spec
states. -/
theorem composeOutputFilename_spec :
    (∀ (e : ProdElements) (p : String), e.parameter = some p →
      _packCOGProductName e = .ok (e.project ++ "_" ++
        ((if truthy e.subProduct then
            e.product ++ "-" ++ e.subProduct.getD "" ++ "-" ++ p
          else e.product ++ "-" ++ p) ++
         (if truthy e.timeIndex then "-" ++ e.timeIndex.getD "" else "")) ++
        "_" ++ e.productDate ++ "_" ++ e.roi ++ "_" ++ e.sensor ++ "_" ++
        e.version ++ ".tiff")) ∧
    createCogFileName "c_gls_NDVI300_202404010000_GLOBE_OLCI_V2.0.1.nc" "NDVI"
      none false =
      .ok "c_gls_NDVI300-NDVI_202404010000_GLOBE_OLCI_V2.0.1.tiff" ∧
    createCogFileName "c_gls_FAPAR300-RT0_202404100000_GLOBE_OLCI_V1.1.2.nc"
      "FAPAR" (some "FAPAR") true =
      .ok "c_gls_FAPAR300-FAPAR-RT0_202404100000_GLOBE_OLCI_V1.1.2.tiff" := by
  refine ⟨?_, by decide, by decide⟩
  intro e p hp
  rw [_packCOGProductName, hp]
  by_cases hsub : truthy e.subProduct <;> by_cases hti : truthy e.timeIndex <;>
    simp [hsub, hti, String.append_assoc]

/-- Witness for C6: the pack format equation at the concrete FAPAR elements. -/
theorem composeOutputFilename_spec_witness :
    _packCOGProductName
      { project := "c_gls", product := "FAPAR300",
        productDate := "202404100000", roi := "GLOBE", sensor := "OLCI",
        version := "V1.1.2", extention := ".nc", subProduct := none,
        timeIndex := some "RT0", parameter := some "FAPAR" } =
      .ok "c_gls_FAPAR300-FAPAR-RT0_202404100000_GLOBE_OLCI_V1.1.2.tiff" := by
  have h := composeOutputFilename_spec.1
    { project := "c_gls", product := "FAPAR300",
      productDate := "202404100000", roi := "GLOBE", sensor := "OLCI",
      version := "V1.1.2", extention := ".nc", subProduct := none,
      timeIndex := some "RT0", parameter := some "FAPAR" } "FAPAR" rfl
  rw [h]
  decide

/-- C7 (counterexample): on the valid 3-part time-indexed FAPAR name, with the
parameter slot re-set to the band name FAPAR, Parse followed by Pack yields a
name with an extra `-FAPAR` inserted — not equivalent to the input modulo the
forced `.tiff` extension. -/
theorem parsePack_roundtrip_cex :
    (_unpackNetCDFProductName
      "c_gls_FAPAR300-FAPAR-RT0_202404100000_GLOBE_OLCI_V1.1.2.nc" true).isOk
      = true ∧
    createCogFileName "c_gls_FAPAR300-FAPAR-RT0_202404100000_GLOBE_OLCI_V1.1.2.nc"
      "FAPAR" (some "FAPAR") true =
      .ok "c_gls_FAPAR300-FAPAR-FAPAR-RT0_202404100000_GLOBE_OLCI_V1.1.2.tiff" ∧
    "c_gls_FAPAR300-FAPAR-FAPAR-RT0_202404100000_GLOBE_OLCI_V1.1.2.tiff" ≠
      "c_gls_FAPAR300-FAPAR-RT0_202404100000_GLOBE_OLCI_V1.1.2.tiff" := by
  decide

/-! ## Split/join lemmas for the round-trip analysis -/

lemma pySplit_ne_nil (sep : Char) (s : List Char) : pySplit sep s ≠ [] := by
  cases s with
  | nil => simp [pySplit]
  | cons c rest =>
    rw [pySplit]
    rcases h : pySplit sep rest with _ | ⟨hd, tl⟩
    · simp
    · by_cases hc : c = sep <;> simp [hc]

lemma pySplit_no_sep (sep : Char) (x : List Char) (hx : sep ∉ x) :
    pySplit sep x = [x] := by
  induction x with
  | nil => rfl
  | cons c rest ih =>
    have hc : c ≠ sep := fun h => hx (h ▸ List.mem_cons_self ..)
    have hrest : sep ∉ rest := fun h => hx (List.mem_cons_of_mem _ h)
    rw [pySplit, ih hrest]
    simp [hc]

lemma pySplit_append_sep (sep : Char) (x y : List Char) (hx : sep ∉ x) :
    pySplit sep (x ++ sep :: y) = x :: pySplit sep y := by
  induction x with
  | nil =>
    rw [List.nil_append, pySplit]
    rcases h : pySplit sep y with _ | ⟨hd, tl⟩
    · exact absurd h (pySplit_ne_nil _ _)
    · simp
  | cons c rest ih =>
    have hc : c ≠ sep := fun h => hx (h ▸ List.mem_cons_self ..)
    have hrest : sep ∉ rest := fun h => hx (List.mem_cons_of_mem _ h)
    rw [List.cons_append, pySplit, ih hrest]
    simp [hc]

lemma pySplit_pyIntercalate (sep : Char) (l : List (List Char)) (hne : l ≠ [])
    (hl : ∀ x ∈ l, sep ∉ x) :
    pySplit sep (pyIntercalate [sep] l) = l := by
  induction l with
  | nil => exact absurd rfl hne
  | cons x rest ih =>
    cases rest with
    | nil =>
      rw [pyIntercalate, pySplit_no_sep sep x (hl x (List.mem_cons_self ..))]
    | cons y t =>
      have hx : sep ∉ x := hl x (List.mem_cons_self ..)
      have hrest : ∀ z ∈ y :: t, sep ∉ z := fun z hz =>
        hl z (List.mem_cons_of_mem _ hz)
      rw [pyIntercalate]
      have hshape : x ++ [sep] ++ pyIntercalate [sep] (y :: t) =
          x ++ sep :: pyIntercalate [sep] (y :: t) := by
        simp
      rw [hshape, pySplit_append_sep sep x _ hx, ih (by simp) hrest]

lemma mem_pyIntercalate (sep : List Char) (l : List (List Char)) (c : Char)
    (hc : c ∈ pyIntercalate sep l) : c ∈ sep ∨ ∃ x ∈ l, c ∈ x := by
  induction l with
  | nil => simp [pyIntercalate] at hc
  | cons x rest ih =>
    cases rest with
    | nil =>
      rw [pyIntercalate] at hc
      exact Or.inr ⟨x, List.mem_cons_self .., hc⟩
    | cons y t =>
      rw [pyIntercalate] at hc
      rcases List.mem_append.mp hc with h1 | h2
      · rcases List.mem_append.mp h1 with ha | hb
        · exact Or.inr ⟨x, List.mem_cons_self .., ha⟩
        · exact Or.inl hb
      · rcases ih h2 with h | ⟨z, hz, hcz⟩
        · exact Or.inl h
        · exact Or.inr ⟨z, List.mem_cons_of_mem _ hz, hcz⟩

lemma lastDotSplit_no_dot (s : List Char) (hs : '.' ∉ s) :
    lastDotSplit s = none := by
  induction s with
  | nil => rfl
  | cons c rest ih =>
    have hc : c ≠ '.' := fun h => hs (h ▸ List.mem_cons_self ..)
    have hrest : '.' ∉ rest := fun h => hs (List.mem_cons_of_mem _ h)
    rw [lastDotSplit, ih hrest]
    simp [hc]

lemma lastDotSplit_append (a b : List Char) (hb : '.' ∉ b) :
    lastDotSplit (a ++ '.' :: b) = some (a, '.' :: b) := by
  induction a with
  | nil =>
    rw [List.nil_append, lastDotSplit, lastDotSplit_no_dot b hb]
    simp
  | cons c a' ih =>
    rw [List.cons_append, lastDotSplit, ih]

lemma splitext_ext (a b : List Char) (hb : '.' ∉ b)
    (ha : a.any (fun c => decide (c ≠ '.')) = true) :
    splitext (a ++ '.' :: b) = (a, '.' :: b) := by
  rw [splitext, lastDotSplit_append a b hb]
  simp only [ha, if_pos]

lemma data_asString (l : List Char) : (l.asString).data = l := rfl

lemma asString_append (a b : List Char) :
    a.asString ++ b.asString = (a ++ b).asString := rfl

lemma asString_isEmpty_false (l : List Char) (h : l ≠ []) :
    (l.asString).isEmpty = false := by
  rw [Bool.eq_false_iff]
  intro hemp
  rw [String.isEmpty_iff] at hemp
  exact h (by simpa using congrArg String.data hemp)

lemma truthy_asString (l : List Char) (h : l ≠ []) :
    truthy (some l.asString) = true := by
  simp [truthy, asString_isEmpty_false l h]

lemma parse_built_name (p1 p2 d r sn v : List Char)
    (tparts : List (List Char)) (erest : List Char) (h : Bool)
    (hcombo : (tparts.length = 1 ∧ h = false) ∨ tparts.length = 2 ∨
      (tparts.length = 3 ∧ h = true))
    (hts : ∀ x ∈ tparts, '_' ∉ x ∧ '-' ∉ x ∧ '.' ∉ x ∧ x ≠ [])
    (hsegs : ∀ x ∈ [p1, p2, d, r, sn, v], '_' ∉ x ∧ '.' ∉ x)
    (hb : '.' ∉ erest) :
    _unpackNetCDFProductName
      ((pyIntercalate ['_'] [p1, p2, pyIntercalate ['-'] tparts, d, r, sn, v]
        ++ '.' :: erest).asString) h = .ok
      { project := (pyIntercalate ['_'] [p1, p2]).asString
        product := (tparts.getD 0 []).asString
        productDate := d.asString
        roi := r.asString
        sensor := sn.asString
        version := v.asString
        extention := ('.' :: erest).asString
        subProduct :=
          if tparts.length = 2 ∧ h = false then some (tparts.getD 1 []).asString
          else if tparts.length = 3 then some (tparts.getD 1 []).asString
          else none
        timeIndex :=
          if tparts.length = 2 ∧ h = true then some (tparts.getD 1 []).asString
          else if tparts.length = 3 then some (tparts.getD 2 []).asString
          else none
        parameter := none } := by
  have hTnotU : '_' ∉ pyIntercalate ['-'] tparts := by
    intro hc
    rcases mem_pyIntercalate _ _ _ hc with hs | ⟨x, hx, hcx⟩
    · simp at hs
    · exact (hts x hx).1 hcx
  have htne : tparts ≠ [] := by
    rcases hcombo with ⟨h1, _⟩ | h2 | ⟨h3, _⟩ <;>
      [skip; skip; skip] <;> intro hz <;> subst hz <;> simp_all
  have hname : ((pyIntercalate ['_']
      [p1, p2, pyIntercalate ['-'] tparts, d, r, sn, v]
      ++ '.' :: erest).asString).data =
      pyIntercalate ['_'] [p1, p2, pyIntercalate ['-'] tparts, d, r, sn, v]
      ++ '.' :: erest := rfl
  have hmemU : '_' ∈ pyIntercalate ['_']
      [p1, p2, pyIntercalate ['-'] tparts, d, r, sn, v] := by
    rw [show pyIntercalate ['_'] [p1, p2, pyIntercalate ['-'] tparts, d, r, sn, v]
        = p1 ++ ['_'] ++ pyIntercalate ['_']
          [p2, pyIntercalate ['-'] tparts, d, r, sn, v] from rfl]
    simp
  have hany : (pyIntercalate ['_']
      [p1, p2, pyIntercalate ['-'] tparts, d, r, sn, v]).any
      (fun c => decide (c ≠ '.')) = true :=
    List.any_eq_true.mpr ⟨'_', hmemU, by decide⟩
  have hstem : stemOf ((pyIntercalate ['_']
      [p1, p2, pyIntercalate ['-'] tparts, d, r, sn, v]
      ++ '.' :: erest).asString) =
      pyIntercalate ['_'] [p1, p2, pyIntercalate ['-'] tparts, d, r, sn, v] := by
    rw [stemOf, hname, splitext_ext _ _ hb hany]
  have hUparts : underscoreParts ((pyIntercalate ['_']
      [p1, p2, pyIntercalate ['-'] tparts, d, r, sn, v]
      ++ '.' :: erest).asString) =
      [p1, p2, pyIntercalate ['-'] tparts, d, r, sn, v] := by
    rw [underscoreParts, hstem]
    refine pySplit_pyIntercalate '_' _ (by simp) ?_
    intro x hx
    simp only [List.mem_cons, List.not_mem_nil, or_false] at hx
    rcases hx with rfl | rfl | rfl | rfl | rfl | rfl | rfl
    · exact (hsegs x (by simp)).1
    · exact (hsegs x (by simp)).1
    · exact hTnotU
    · exact (hsegs x (by simp)).1
    · exact (hsegs x (by simp)).1
    · exact (hsegs x (by simp)).1
    · exact (hsegs x (by simp)).1
  have hHparts : hyphenParts ((pyIntercalate ['_']
      [p1, p2, pyIntercalate ['-'] tparts, d, r, sn, v]
      ++ '.' :: erest).asString) = tparts := by
    rw [hyphenParts, hUparts]
    simp only [List.getD, List.getElem?_cons_succ, List.getElem?_cons_zero,
      Option.getD_some]
    exact pySplit_pyIntercalate '-' tparts htne (fun x hx => (hts x hx).2.1)
  have h7 : 7 ≤ (underscoreParts ((pyIntercalate ['_']
      [p1, p2, pyIntercalate ['-'] tparts, d, r, sn, v]
      ++ '.' :: erest).asString)).length := by
    rw [hUparts]; simp
  have hcombo' := hcombo
  rw [← hHparts] at hcombo'
  have hok := parse_grammar_spec.2 _ h h7 hcombo'
  rw [hok]
  congr 1
  rw [hUparts, hHparts]
  have hext2 : (splitext ((pyIntercalate ['_']
      [p1, p2, pyIntercalate ['-'] tparts, d, r, sn, v]
      ++ '.' :: erest).asString).data).2 = '.' :: erest := by
    rw [hname, splitext_ext _ _ hb hany]
  rw [hext2]
  simp [List.getD]

lemma data_uscore : ("_" : String).data = ['_'] := rfl

lemma data_dash : ("-" : String).data = ['-'] := rfl

lemma data_dottiff : (".tiff" : String).data = ['.', 't', 'i', 'f', 'f'] := rfl

lemma data_blank : ("" : String).data = [] := rfl

/-- C7 (amended): for every valid 7-segment name built from dot-free and
underscore-free components whose third segment has 1-3 nonempty hyphen-free
sub-parts in a combination the table accepts, Parse followed by Pack with the
parameter slot re-set to `p` yields exactly the input name with `-p` inserted
after `product[-subProduct]` (before the `timeIndex` part when present) and
with the extension forced to `.tiff`: the round-trip reproduces every element
of the input, but the packed name always carries the inserted parameter, so
equality modulo extension alone does not hold. -/
theorem parsePack_insertion_spec
    (p1 p2 d r sn v : List Char) (tparts : List (List Char))
    (erest : List Char) (h : Bool) (p : String)
    (hcombo : (tparts.length = 1 ∧ h = false) ∨ tparts.length = 2 ∨
      (tparts.length = 3 ∧ h = true))
    (hts : ∀ x ∈ tparts, '_' ∉ x ∧ '-' ∉ x ∧ '.' ∉ x ∧ x ≠ [])
    (hsegs : ∀ x ∈ [p1, p2, d, r, sn, v], '_' ∉ x ∧ '.' ∉ x)
    (hb : '.' ∉ erest) :
    ∃ elems,
      _unpackNetCDFProductName
        ((pyIntercalate ['_'] [p1, p2, pyIntercalate ['-'] tparts, d, r, sn, v]
          ++ '.' :: erest).asString) h = .ok elems ∧
      _packCOGProductName { elems with parameter := some p } =
        .ok ((pyIntercalate ['_']
          [p1, p2, pyIntercalate ['-'] (insertParamParts tparts h p.data),
           d, r, sn, v]).asString ++ ".tiff") := by
  have hok := parse_built_name p1 p2 d r sn v tparts erest h hcombo hts hsegs hb
  refine ⟨_, hok, ?_⟩
  rw [composeOutputFilename_spec.1 _ p rfl]
  congr 1
  rcases hcombo with ⟨h1, rfl⟩ | h2 | ⟨h3, rfl⟩
  · obtain ⟨t0, rfl⟩ := List.length_eq_one.mp h1
    simp only [List.length_singleton, truthy]
    apply String.ext
    simp [insertParamParts, pyIntercalate, String.data_append, data_asString,
      data_uscore, data_dash, data_dottiff, data_blank, List.append_assoc]
  · rcases tparts with _ | ⟨t0, _ | ⟨t1, _ | ⟨t2, tr⟩⟩⟩
    · simp at h2
    · simp at h2
    · have he1 : (t1.asString).isEmpty = false :=
        asString_isEmpty_false t1 (hts t1 (by simp)).2.2.2
      cases h
      · apply String.ext
        simp [insertParamParts, pyIntercalate, String.data_append, data_asString,
          data_uscore, data_dash, data_dottiff, data_blank, List.append_assoc,
          truthy, he1]
      · apply String.ext
        simp [insertParamParts, pyIntercalate, String.data_append, data_asString,
          data_uscore, data_dash, data_dottiff, data_blank, List.append_assoc,
          truthy, he1]
    · simp at h2
  · rcases tparts with _ | ⟨t0, _ | ⟨t1, _ | ⟨t2, _ | ⟨t3, tr⟩⟩⟩⟩
    · simp at h3
    · simp at h3
    · simp at h3
    · have he1 : (t1.asString).isEmpty = false :=
        asString_isEmpty_false t1 (hts t1 (by simp)).2.2.2
      have he2 : (t2.asString).isEmpty = false :=
        asString_isEmpty_false t2 (hts t2 (by simp)).2.2.2
      apply String.ext
      simp [insertParamParts, pyIntercalate, String.data_append, data_asString,
        data_uscore, data_dash, data_dottiff, data_blank, List.append_assoc,
        truthy, he1, he2]
    · simp at h3

/-- Witness for the amended C7: the insertion equation at a concrete 3-part
time-indexed name. -/
theorem parsePack_insertion_spec_witness :
    ∃ elems,
      _unpackNetCDFProductName
        ((pyIntercalate ['_']
          [['c'], ['g'], pyIntercalate ['-'] [['F'], ['A'], ['R']],
           ['d'], ['r'], ['s'], ['v']] ++ '.' :: ['n', 'c']).asString) true =
        .ok elems ∧
      _packCOGProductName { elems with parameter := some "X" } =
        .ok ((pyIntercalate ['_']
          [['c'], ['g'],
           pyIntercalate ['-'] (insertParamParts [['F'], ['A'], ['R']] true "X".data),
           ['d'], ['r'], ['s'], ['v']]).asString ++ ".tiff") :=
  parsePack_insertion_spec ['c'] ['g'] ['d'] ['r'] ['s'] ['v']
    [['F'], ['A'], ['R']] ['n', 'c'] true "X"
    (Or.inr (Or.inr ⟨by decide, rfl⟩)) (by decide) (by decide) (by decide)

/-! ## Lemmas for the safe-move filesystem model -/

lemma fs2Get_fs2Set_self (fs : FS2) (p : String) (d : FileSt) :
    fs2Get (fs2Set fs p d) p = some d := by
  induction fs with
  | nil => simp [fs2Set, fs2Get, List.find?]
  | cons hd rest ih =>
    obtain ⟨q, e⟩ := hd
    by_cases hq : q = p
    · simp [fs2Set, hq, fs2Get, List.find?]
    · simp only [fs2Set, hq, if_neg, not_false_iff]
      simpa [fs2Get, List.find?, hq] using ih

lemma fs2Get_fs2Set_ne (fs : FS2) (p q : String) (d : FileSt) (h : q ≠ p) :
    fs2Get (fs2Set fs p d) q = fs2Get fs q := by
  induction fs with
  | nil => simp [fs2Set, fs2Get, List.find?, h.symm]
  | cons hd rest ih =>
    obtain ⟨a, e⟩ := hd
    by_cases ha : a = p
    · subst ha
      simp [fs2Set, fs2Get, List.find?, h.symm]
    · simp only [fs2Set, ha, if_neg, not_false_iff]
      by_cases haq : a = q
      · simp [fs2Get, List.find?, haq]
      · simpa [fs2Get, List.find?, haq] using ih

lemma fs2Get_fs2Remove_self (fs : FS2) (p : String) :
    fs2Get (fs2Remove fs p) p = none := by
  induction fs with
  | nil => rfl
  | cons hd rest ih =>
    obtain ⟨a, e⟩ := hd
    by_cases ha : a = p
    · rw [show fs2Remove ((a, e) :: rest) p = fs2Remove rest p by
        simp [fs2Remove, List.filter_cons, ha]]
      exact ih
    · rw [show fs2Remove ((a, e) :: rest) p = (a, e) :: fs2Remove rest p by
        simp [fs2Remove, List.filter_cons, ha]]
      simpa [fs2Get, List.find?, ha] using ih

lemma fs2Get_fs2Remove_ne (fs : FS2) (p q : String) (h : q ≠ p) :
    fs2Get (fs2Remove fs p) q = fs2Get fs q := by
  induction fs with
  | nil => rfl
  | cons hd rest ih =>
    obtain ⟨a, e⟩ := hd
    by_cases ha : a = p
    · subst ha
      rw [show fs2Remove ((a, e) :: rest) a = fs2Remove rest a by
        simp [fs2Remove, List.filter_cons]]
      rw [ih]
      simp [fs2Get, List.find?, h.symm]
    · rw [show fs2Remove ((a, e) :: rest) p = (a, e) :: fs2Remove rest p by
        simp [fs2Remove, List.filter_cons, ha]]
      by_cases haq : a = q
      · simp [fs2Get, List.find?, haq]
      · simpa [fs2Get, List.find?, haq] using ih

lemma append_temp_ne (s : String) : s ++ ".temp" ≠ s := by
  intro h
  have hlen := congrArg String.length h
  rw [String.length_append] at hlen
  have h5 : (".temp" : String).length = 5 := rfl
  rw [h5] at hlen
  omega

/-! ## Claim theorems: SafeMove -/

/-- C2 (counterexample): during `_safeMove` there is an observable moment —
right after the pre-existing `dst` is removed and before the rename — at which
`dst` holds neither its prior content nor the new content: it is absent.  An
interruption at that step therefore does not leave `dst` in its pre-call
state either. -/
theorem safeMove_window_cex :
    ∃ st ∈ safeMoveStates "src" "dst" 420
      [("dst", ⟨.complete 1, 420⟩), ("src", ⟨.complete 2, 420⟩)],
      fs2Get st "dst" = none ∧
      fs2Get [("dst", ⟨FContent.complete 1, 420⟩),
              ("src", ⟨FContent.complete 2, 420⟩)] "dst" =
        some ⟨.complete 1, 420⟩ := by
  decide

/-- C2 (amended): for every `_safeMove(src, dst, mod)` call from a state where
`src` is a completely written file (and `src` is neither `dst` nor the temp
path): (1) an observer of `dst` never sees a truncated file — at every moment
`dst` is its pre-call entry, absent, or the complete new content (with the old
or the configured mode); (2) at every moment up to and including the
completion of the copy (the first four states, before the `dst` removal),
`dst` is exactly its pre-call entry, so a failure up to that point leaves
`dst` untouched; (3) on completion `src` no longer exists and `dst` holds the
complete new content with the configured permissions. -/
theorem safeMove_spec (src dst : String) (mod : Nat) (fs0 : FS2)
    (w md : Nat) (hsrc : fs2Get fs0 src = some ⟨.complete w, md⟩)
    (hsd : src ≠ dst) (hst : src ≠ dst ++ ".temp") :
    (∀ st ∈ safeMoveStates src dst mod fs0,
      fs2Get st dst = fs2Get fs0 dst ∨ fs2Get st dst = none ∨
      fs2Get st dst = some ⟨.complete w, md⟩ ∨
      fs2Get st dst = some ⟨.complete w, mod⟩) ∧
    (∀ st ∈ (safeMoveStates src dst mod fs0).take 4,
      fs2Get st dst = fs2Get fs0 dst) ∧
    (∃ fsEnd, _safeMove src dst mod fs0 = .ok fsEnd ∧
      fs2Get fsEnd src = none ∧
      fs2Get fsEnd dst = some ⟨.complete w, mod⟩) := by
  have htd : dst ++ ".temp" ≠ dst := append_temp_ne dst
  have hdt : dst ≠ dst ++ ".temp" := Ne.symm htd
  have hds : dst ≠ src := Ne.symm hsd
  have hs1 : fs2Get (fs2Remove fs0 (dst ++ ".temp")) src =
      some ⟨.complete w, md⟩ := by
    rw [fs2Get_fs2Remove_ne _ _ _ hst]
    exact hsrc
  refine ⟨?_, ?_, ?_⟩
  · rw [safeMoveStates]
    simp only [hs1, fs2Get_fs2Set_self]
    intro st hst2
    simp only [List.mem_cons, List.not_mem_nil, or_false] at hst2
    rcases hst2 with rfl | rfl | rfl | rfl | rfl | rfl | rfl | rfl
    · exact Or.inl rfl
    · exact Or.inl (fs2Get_fs2Remove_ne _ _ _ hdt)
    · rw [fs2Get_fs2Set_ne _ _ _ _ hdt]
      exact Or.inl (fs2Get_fs2Remove_ne _ _ _ hdt)
    · rw [fs2Get_fs2Set_ne _ _ _ _ hdt, fs2Get_fs2Set_ne _ _ _ _ hdt]
      exact Or.inl (fs2Get_fs2Remove_ne _ _ _ hdt)
    · exact Or.inr (Or.inl (fs2Get_fs2Remove_self _ _))
    · exact Or.inr (Or.inr (Or.inl (fs2Get_fs2Set_self _ _ _)))
    · rw [fs2Get_fs2Set_self]
      exact Or.inr (Or.inr (Or.inr rfl))
    · rw [fs2Get_fs2Remove_ne _ _ _ hds, fs2Get_fs2Set_self]
      exact Or.inr (Or.inr (Or.inr rfl))
  · rw [safeMoveStates]
    simp only [hs1, fs2Get_fs2Set_self]
    intro st hst2
    simp only [List.take, List.mem_cons, List.not_mem_nil, or_false] at hst2
    rcases hst2 with rfl | rfl | rfl | rfl
    · rfl
    · exact fs2Get_fs2Remove_ne _ _ _ hdt
    · rw [fs2Get_fs2Set_ne _ _ _ _ hdt]
      exact fs2Get_fs2Remove_ne _ _ _ hdt
    · rw [fs2Get_fs2Set_ne _ _ _ _ hdt, fs2Get_fs2Set_ne _ _ _ _ hdt]
      exact fs2Get_fs2Remove_ne _ _ _ hdt
  · refine ⟨fs2Remove (fs2Set (fs2Set (fs2Remove (fs2Remove (fs2Set
        (fs2Set (fs2Remove fs0 (dst ++ ".temp")) (dst ++ ".temp")
          ⟨.truncated w, md⟩) (dst ++ ".temp") ⟨.complete w, md⟩) dst)
        (dst ++ ".temp")) dst ⟨.complete w, md⟩) dst ⟨.complete w, mod⟩)
        src, ?_, ?_, ?_⟩
    · rw [_safeMove, safeMoveStates]
      simp only [hs1, fs2Get_fs2Set_self]
      rfl
    · exact fs2Get_fs2Remove_self _ _
    · rw [fs2Get_fs2Remove_ne _ _ _ hds, fs2Get_fs2Set_self]

/-- Witness for the amended C2: a successful move from a concrete state,
showing the source gone and the destination complete with the configured
mode. -/
theorem safeMove_spec_witness :
    ∃ fsEnd, _safeMove "a" "b" 420
      [("b", ⟨.complete 1, 420⟩), ("a", ⟨.complete 2, 420⟩)] = .ok fsEnd ∧
      fs2Get fsEnd "a" = none ∧
      fs2Get fsEnd "b" = some ⟨.complete 2, 420⟩ :=
  (safeMove_spec "a" "b" 420 [("b", ⟨.complete 1, 420⟩), ("a", ⟨.complete 2, 420⟩)]
    2 420 (by decide) (by decide) (by decide)).2.2

/-! ## Claim theorems: the conversion pipeline -/

/-- C1 (counterexample): when the first band's base-extraction command fails,
the whole job aborts with the raised `CalledProcessError`: the second band is
never started (no progress line for it), its output is never produced, and no
further command runs — contradicting the claim that processing continues with
the remaining bands. -/
theorem pipeline_abort_cex :
    (cogProcessorFull cfgAbort ncAbort envAbort1 "2026-10-12" []).2.2 =
      some .calledProcessError ∧
    ((cogProcessorFull cfgAbort ncAbort envAbort1 "2026-10-12" []).1.events.any
      (isBandHeader 1)) = false ∧
    fsHas (cogProcessorFull cfgAbort ncAbort envAbort1 "2026-10-12" []).1.fs
      ⟨"O", "a_b_P-b2_d_r_s_v.tiff"⟩ = false ∧
    ((cogProcessorFull cfgAbort ncAbort envAbort1 "2026-10-12" []).1.events.filter
      isCmdRun).length = 1 := by
  decide

/-- C5 (counterexample): when the second band's base extraction fails after
the first band completed, the job aborts before the cleanup loop runs, and
the first band's intermediate base image is left behind in the temporary
folder — contradicting the claim that intermediates are removed whatever each
band's terminal state. -/
theorem cleanup_skipped_on_failure_cex :
    (cogProcessorFull cfgAbort ncAbort envAbort2 "2026-10-12" []).2.2 =
      some .calledProcessError ∧
    fsHas (cogProcessorFull cfgAbort ncAbort envAbort2 "2026-10-12" []).1.fs
      ⟨"T", "a_b_P-b1_d_r_s_v_base.tiff"⟩ = true ∧
    fsHas (cogProcessorFull cfgAbort ncAbort envAbort2 "2026-10-12" []).1.fs
      ⟨"T", "a_b_P-b1_d_r_s_v_base.tiff.ovr"⟩ = true := by
  decide

/-- C3 (counterexample): with the temporary folder equal to the output folder,
one band's temporary base image can sit at another band's output path.  In
`cfgCollide`, run 1 succeeds (band 2 is "skipped" because band 1's temp file
occupies its output path, and cleanup then deletes that file), yet a second
identical run does not skip band 2: it executes commands and changes the
filesystem — so the claim's unconditional idempotence consequence fails. -/
theorem skip_idempotence_cex :
    (cogProcessorFull cfgCollide ncCollide envAll "2026-10-12" []).2.2 = none ∧
    cfgCollide.overwriteExistingFiles = false ∧
    ((cogProcessorFull cfgCollide ncCollide envAll "2026-10-12"
        (cogProcessorFull cfgCollide ncCollide envAll "2026-10-12" []).1.fs).1.events.any
      (isSkipped 1)) = false ∧
    ((cogProcessorFull cfgCollide ncCollide envAll "2026-10-12"
        (cogProcessorFull cfgCollide ncCollide envAll "2026-10-12" []).1.fs).1.events.any
      isCmdRun) = true ∧
    ((cogProcessorFull cfgCollide ncCollide envAll "2026-10-12"
        (cogProcessorFull cfgCollide ncCollide envAll "2026-10-12" []).1.fs).1.fs ≠
      (cogProcessorFull cfgCollide ncCollide envAll "2026-10-12" []).1.fs) := by
  decide

/-! ## Lemmas for the pipeline filesystem model -/

lemma fsGet_fsSet_self (fs : FS) (p : FPath) (d : FData) :
    fsGet (fsSet fs p d) p = some d := by
  induction fs with
  | nil => simp [fsSet, fsGet, List.find?]
  | cons hd rest ih =>
    obtain ⟨q, e⟩ := hd
    by_cases hq : q = p
    · simp [fsSet, hq, fsGet, List.find?]
    · simp only [fsSet, hq, if_neg, not_false_iff]
      simpa [fsGet, List.find?, hq] using ih

lemma fsGet_fsSet_ne (fs : FS) (p q : FPath) (d : FData) (h : q ≠ p) :
    fsGet (fsSet fs p d) q = fsGet fs q := by
  induction fs with
  | nil => simp [fsSet, fsGet, List.find?, h.symm]
  | cons hd rest ih =>
    obtain ⟨a, e⟩ := hd
    by_cases ha : a = p
    · subst ha
      simp [fsSet, fsGet, List.find?, h.symm]
    · simp only [fsSet, ha, if_neg, not_false_iff]
      by_cases haq : a = q
      · simp [fsGet, List.find?, haq]
      · simpa [fsGet, List.find?, haq] using ih

lemma fsGet_fsRemove_self (fs : FS) (p : FPath) :
    fsGet (fsRemove fs p) p = none := by
  induction fs with
  | nil => rfl
  | cons hd rest ih =>
    obtain ⟨a, e⟩ := hd
    by_cases ha : a = p
    · rw [show fsRemove ((a, e) :: rest) p = fsRemove rest p by
        simp [fsRemove, List.filter_cons, ha]]
      exact ih
    · rw [show fsRemove ((a, e) :: rest) p = (a, e) :: fsRemove rest p by
        simp [fsRemove, List.filter_cons, ha]]
      simpa [fsGet, List.find?, ha] using ih

lemma fsGet_fsRemove_ne (fs : FS) (p q : FPath) (h : q ≠ p) :
    fsGet (fsRemove fs p) q = fsGet fs q := by
  induction fs with
  | nil => rfl
  | cons hd rest ih =>
    obtain ⟨a, e⟩ := hd
    by_cases ha : a = p
    · subst ha
      rw [show fsRemove ((a, e) :: rest) a = fsRemove rest a by
        simp [fsRemove, List.filter_cons]]
      rw [ih]
      simp [fsGet, List.find?, h.symm]
    · rw [show fsRemove ((a, e) :: rest) p = (a, e) :: fsRemove rest p by
        simp [fsRemove, List.filter_cons, ha]]
      by_cases haq : a = q
      · simp [fsGet, List.find?, haq]
      · simpa [fsGet, List.find?, haq] using ih

lemma fsHas_fsSet (fs : FS) (p q : FPath) (d : FData) (h : fsHas fs q = true) :
    fsHas (fsSet fs p d) q = true := by
  by_cases hq : q = p
  · subst hq
    simp [fsHas, fsGet_fsSet_self]
  · rw [fsHas, fsGet_fsSet_ne _ _ _ _ hq]
    exact h

lemma fsHas_fsRemove_ne (fs : FS) (p q : FPath) (h : q ≠ p)
    (hq : fsHas fs q = true) : fsHas (fsRemove fs p) q = true := by
  rw [fsHas, fsGet_fsRemove_ne _ _ _ h]
  exact hq

lemma lastChar_append_tiff (s : String) :
    (s ++ ".tiff").data.getLast? = some 'f' := by
  rw [String.data_append]
  rw [List.getLast?_append_of_ne_nil _ (by decide : (".tiff" : String).data ≠ [])]
  rfl

lemma lastChar_append_temp (s : String) :
    (s ++ ".temp").data.getLast? = some 'p' := by
  rw [String.data_append]
  rw [List.getLast?_append_of_ne_nil _ (by decide : (".temp" : String).data ≠ [])]
  rfl

lemma pack_ends_tiff (e : ProdElements) (f : String)
    (h : _packCOGProductName e = .ok f) : ∃ u, f = u ++ ".tiff" := by
  rw [_packCOGProductName] at h
  rcases hp : e.parameter with _ | param <;> rw [hp] at h
  · cases h
  · exact ⟨_, (Except.ok.injEq .. |>.mp h).symm⟩

lemma createCogFileName_ends_tiff (inFile inBand : String)
    (outBand : Option String) (hasTimeIndex : Bool) (f : String)
    (h : createCogFileName inFile inBand outBand hasTimeIndex = .ok f) :
    ∃ u, f = u ++ ".tiff" := by
  rw [createCogFileName] at h
  rcases hu : _unpackNetCDFProductName inFile hasTimeIndex with e | pe <;>
    rw [hu] at h
  · cases h
  · exact pack_ends_tiff _ _ h

lemma temp_ne_tiffpath (folder2 : String) (dstBase : String)
    (q : FPath) (hq : q.base.data.getLast? = some 'f') :
    q ≠ ⟨folder2, dstBase ++ ".temp"⟩ := by
  intro h
  rw [h] at hq
  rw [lastChar_append_temp] at hq
  cases hq

lemma triple_eq {α β γ : Type} {a a' : α} {b b' : β} {c c' : γ}
    (h : (a, b, c) = (a', b', c')) : a = a' ∧ b = b' ∧ c = c' := by
  obtain ⟨h1, h2⟩ := Prod.mk.injEq .. |>.mp h
  obtain ⟨h2, h3⟩ := Prod.mk.injEq .. |>.mp h2
  exact ⟨h1, h2, h3⟩

lemma lastChar_append_ovr (s : String) :
    (s ++ ".ovr").data.getLast? = some 'r' := by
  rw [String.data_append]
  rw [List.getLast?_append_of_ne_nil _ (by decide : (".ovr" : String).data ≠ [])]
  rfl

lemma overviewStage_spec (cfg : CogCfg) (env : String → Bool) (rm : String)
    (tiffFile : FPath) (s s' : PState) (tAdd : List FPath) (r : Option PyErr)
    (h : overviewStage cfg env rm tiffFile s = (s', tAdd, r)) :
    (∃ Γ, s'.events = s.events ++ Γ ∧ ∀ e ∈ Γ, isCmdRun e = true) ∧
    (∀ p ∈ tAdd, p.folder = tiffFile.folder) ∧
    (∀ q, q.base.data.getLast? = some 'f' → fsHas s.fs q = true →
      fsHas s'.fs q = true) := by
  rw [overviewStage] at h
  by_cases hovr : cfg.cogOverviews.isEmpty
  · rw [if_pos hovr] at h
    obtain ⟨rfl, rfl, rfl⟩ := triple_eq h
    exact ⟨⟨[], by simp, by simp⟩, by simp, fun q _ hq => hq⟩
  · rw [if_neg hovr] at h
    simp only at h
    by_cases h2 : env ("gdaladdo -clean  " ++ pathStr tiffFile)
    · rw [if_pos h2] at h
      by_cases h3 : env ("gdaladdo -ro --config GDAL_TIFF_OVR_BLOCKSIZE " ++
          toString cfg.blockSize ++ " --config COMPRESS_OVERVIEW " ++
          cfg.compressionMethod ++ " -r " ++ rm ++ " " ++ pathStr tiffFile ++
          " " ++ String.intercalate " " (cfg.cogOverviews.map toString))
      · rw [if_pos h3] at h
        obtain ⟨rfl, rfl, rfl⟩ := triple_eq h
        refine ⟨⟨_, by rw [List.append_assoc], ?_⟩, by simp, ?_⟩
        · intro e he
          simp only [List.append_nil, List.cons_append, List.nil_append,
            List.mem_cons, List.not_mem_nil, or_false] at he
          rcases he with rfl | rfl <;> rfl
        · intro q hqf hq
          apply fsHas_fsSet
          apply fsHas_fsRemove_ne
          · intro hcontra
            rw [hcontra] at hqf
            rw [lastChar_append_ovr] at hqf
            cases hqf
          · exact hq
      · rw [if_neg h3] at h
        obtain ⟨rfl, rfl, rfl⟩ := triple_eq h
        refine ⟨⟨_, by rw [List.append_assoc], ?_⟩, by simp, ?_⟩
        · intro e he
          simp only [List.append_nil, List.cons_append, List.nil_append,
            List.mem_cons, List.not_mem_nil, or_false] at he
          rcases he with rfl | rfl <;> rfl
        · intro q hqf hq
          apply fsHas_fsRemove_ne
          · intro hcontra
            rw [hcontra] at hqf
            rw [lastChar_append_ovr] at hqf
            cases hqf
          · exact hq
    · rw [if_neg h2] at h
      obtain ⟨rfl, rfl, rfl⟩ := triple_eq h
      refine ⟨⟨_, rfl, ?_⟩, by simp, fun q _ hq => hq⟩
      intro e he
      simp only [List.mem_cons, List.not_mem_nil, or_false] at he
      rcases he with rfl
      rfl

lemma pipeSafeMove_preserves (fs : FS) (src dst : FPath) (fs' : FS)
    (h : pipeSafeMove fs src dst = .ok fs') (q : FPath) (hqs : q ≠ src)
    (hqf : q.base.data.getLast? = some 'f')
    (hq : fsHas fs q = true) : fsHas fs' q = true := by
  rw [pipeSafeMove] at h
  simp only at h
  rcases hg : fsGet (fsRemove fs ⟨dst.folder, dst.base ++ ".temp"⟩) src
    with _ | dd <;> rw [hg] at h
  · cases h
  · obtain rfl := Except.ok.injEq .. |>.mp h
    have hqt : q ≠ (⟨dst.folder, dst.base ++ ".temp"⟩ : FPath) :=
      temp_ne_tiffpath _ _ _ hqf
    by_cases hqd : q = dst
    · subst hqd
      apply fsHas_fsRemove_ne _ _ _ hqs
      simp [fsHas, fsGet_fsSet_self]
    · apply fsHas_fsRemove_ne _ _ _ hqs
      apply fsHas_fsSet
      apply fsHas_fsRemove_ne _ _ _ hqt
      apply fsHas_fsRemove_ne _ _ _ hqd
      apply fsHas_fsSet
      apply fsHas_fsRemove_ne _ _ _ hqt
      exact hq

lemma pipeSafeMove_sets_dst (fs : FS) (src dst : FPath) (fs' : FS)
    (h : pipeSafeMove fs src dst = .ok fs') (hsd : dst ≠ src) :
    fsHas fs' dst = true := by
  rw [pipeSafeMove] at h
  simp only at h
  rcases hg : fsGet (fsRemove fs ⟨dst.folder, dst.base ++ ".temp"⟩) src
    with _ | dd <;> rw [hg] at h
  · cases h
  · obtain rfl := Except.ok.injEq .. |>.mp h
    apply fsHas_fsRemove_ne _ _ _ hsd
    simp [fsHas, fsGet_fsSet_self]

lemma bandConvert_spec (cfg : CogCfg) (env : String → Bool) (today : String)
    (fa : List (String × PyValue)) (b : BandInfo)
    (battrs : List (String × PyValue)) (cogFile : String) (cogPath : FPath)
    (stem : String) (s s' : PState) (temps : List FPath) (r : Option PyErr)
    (h : bandConvert cfg env today fa b battrs cogFile cogPath stem s =
      (s', temps, r)) :
    (∀ e ∈ s'.events, e ∈ s.events ∨ isCmdRun e = true) ∧
    (∀ e ∈ s.events, e ∈ s'.events) ∧
    (∀ p ∈ temps, p.folder = cfg.tmpFolder) ∧
    (∀ q, q.folder ≠ cfg.tmpFolder → q.base.data.getLast? = some 'f' →
      fsHas s.fs q = true → fsHas s'.fs q = true) ∧
    (cogPath.folder ≠ cfg.tmpFolder → r = none →
      fsHas s'.fs cogPath = true) := by
  rw [bandConvert] at h
  simp only at h
  split at h
  · rename_i h1
    split at h
    · -- overview stage raised
      rename_i s2 tAdd e2 heq
      obtain ⟨rfl, rfl, rfl⟩ := triple_eq h
      obtain ⟨⟨Γov, hevo, hcmdo⟩, htA, hpres⟩ :=
        overviewStage_spec _ _ _ _ _ _ _ _ heq
      refine ⟨?_, ?_, ?_, ?_, ?_⟩
      · intro e he
        rw [hevo] at he
        simp only [List.append_assoc, List.mem_append, List.mem_cons,
          List.not_mem_nil, or_false] at he
        rcases he with he | he | he
        · exact Or.inl he
        · subst he; exact Or.inr rfl
        · exact Or.inr (hcmdo e he)
      · intro e he
        rw [hevo]
        simp [he]
      · intro p hp
        simp only [List.cons_append, List.nil_append, List.mem_cons] at hp
        rcases hp with rfl | hp
        · rfl
        · exact htA p hp
      · intro q hqfold hqf hq
        exact hpres q hqf (fsHas_fsSet _ _ _ _ hq)
      · intro _ hno
        exact Option.noConfusion hno
    · -- overview stage succeeded
      rename_i s2 tAdd heq
      obtain ⟨⟨Γov, hevo, hcmdo⟩, htA, hpres⟩ :=
        overviewStage_spec _ _ _ _ _ _ _ _ heq
      have hmemUp : ∀ e ∈ s2.events, e ∈ s.events ∨ isCmdRun e = true := by
        intro e he
        rw [hevo] at he
        simp only [List.append_assoc, List.mem_append, List.mem_cons,
          List.not_mem_nil, or_false] at he
        rcases he with he | he | he
        · exact Or.inl he
        · subst he; exact Or.inr rfl
        · exact Or.inr (hcmdo e he)
      have hmemDown : ∀ e ∈ s.events, e ∈ s2.events := by
        intro e he
        rw [hevo]
        simp [he]
      have hpres2 : ∀ q, q.folder ≠ cfg.tmpFolder →
          q.base.data.getLast? = some 'f' → fsHas s.fs q = true →
          fsHas s2.fs q = true := by
        intro q hqfold hqf hq
        exact hpres q hqf (fsHas_fsSet _ _ _ _ hq)
      have htemps : ∀ p ∈ ([(⟨cfg.tmpFolder, stem ++ "_base.tiff"⟩ : FPath)] ++ tAdd),
          p.folder = cfg.tmpFolder := by
        intro p hp
        simp only [List.cons_append, List.nil_append, List.mem_cons] at hp
        rcases hp with rfl | hp
        · rfl
        · exact htA p hp
      split at h
      · -- file-attribute conversion raised
        obtain ⟨rfl, rfl, rfl⟩ := triple_eq h
        exact ⟨hmemUp, hmemDown, htemps, hpres2, fun _ hno => Option.noConfusion hno⟩
      · -- file attributes converted
        split at h
        · -- band-attribute conversion raised
          obtain ⟨rfl, rfl, rfl⟩ := triple_eq h
          exact ⟨hmemUp, hmemDown, htemps, hpres2, fun _ hno => Option.noConfusion hno⟩
        · -- band attributes converted
          split at h
          · -- base image missing at metadata stage
            obtain ⟨rfl, rfl, rfl⟩ := triple_eq h
            exact ⟨hmemUp, hmemDown, htemps, hpres2, fun _ hno => Option.noConfusion hno⟩
          · -- metadata stamped
            rename_i metadataDict bandMetadataDict dd hget
            split at h
            · -- final encode succeeded
              rename_i h4
              split at h
              · -- safe move raised
                obtain ⟨rfl, rfl, rfl⟩ := triple_eq h
                refine ⟨?_, ?_, htemps, ?_, fun _ hno => Option.noConfusion hno⟩
                · intro e he
                  simp only [List.mem_append, List.mem_cons, List.not_mem_nil,
                    or_false] at he
                  rcases he with he | he
                  · exact hmemUp e he
                  · subst he; exact Or.inr rfl
                · intro e he
                  simp only [List.mem_append]
                  exact Or.inl (hmemDown e he)
                · intro q hqfold hqf hq
                  apply fsHas_fsSet
                  apply fsHas_fsSet
                  exact hpres2 q hqfold hqf hq
              · -- safe move succeeded: band published
                rename_i fs5 hmv
                obtain ⟨rfl, rfl, rfl⟩ := triple_eq h
                refine ⟨?_, ?_, htemps, ?_, ?_⟩
                · intro e he
                  simp only [List.mem_append, List.mem_cons, List.not_mem_nil,
                    or_false] at he
                  rcases he with he | he
                  · exact hmemUp e he
                  · subst he; exact Or.inr rfl
                · intro e he
                  simp only [List.mem_append]
                  exact Or.inl (hmemDown e he)
                · intro q hqfold hqf hq
                  refine pipeSafeMove_preserves _ _ _ _ hmv q ?_ hqf ?_
                  · intro hcon
                    rw [hcon] at hqfold
                    exact hqfold rfl
                  · apply fsHas_fsSet
                    apply fsHas_fsSet
                    exact hpres2 q hqfold hqf hq
                · intro hfold _
                  refine pipeSafeMove_sets_dst _ _ _ _ hmv ?_
                  intro hcon
                  rw [hcon] at hfold
                  exact hfold rfl
            · -- final encode failed
              obtain ⟨rfl, rfl, rfl⟩ := triple_eq h
              refine ⟨?_, ?_, htemps, ?_, fun _ hno => Option.noConfusion hno⟩
              · intro e he
                simp only [List.mem_append, List.mem_cons, List.not_mem_nil,
                  or_false] at he
                rcases he with he | he
                · exact hmemUp e he
                · subst he; exact Or.inr rfl
              · intro e he
                simp only [List.mem_append]
                exact Or.inl (hmemDown e he)
              · intro q hqfold hqf hq
                apply fsHas_fsSet
                exact hpres2 q hqfold hqf hq
  · -- base extraction failed
    obtain ⟨rfl, rfl, rfl⟩ := triple_eq h
    refine ⟨?_, ?_, ?_, fun q _ _ hq => hq, fun _ hno => Option.noConfusion hno⟩
    · intro e he
      simp only [List.mem_append, List.mem_cons, List.not_mem_nil, or_false] at he
      rcases he with he | he
      · exact Or.inl he
      · subst he; exact Or.inr rfl
    · intro e he
      simp only [List.mem_append]
      exact Or.inl he
    · intro p hp
      simp only [List.mem_cons, List.not_mem_nil, or_false] at hp
      subst hp
      rfl

lemma bandStep_spec (cfg : CogCfg) (env : String → Bool) (today : String)
    (fa : List (String × PyValue)) (idx : Nat) (b : BandInfo)
    (battrs : List (String × PyValue)) (s s' : PState) (temps : List FPath)
    (r : Option PyErr)
    (h : bandStep cfg env today fa idx b battrs s = (s', temps, r)) :
    (∀ e ∈ s'.events, e ∈ s.events ∨ isCmdRun e = true ∨
      (∃ f, e = Ev.bandHeader idx f) ∨ (∃ f, e = Ev.skippedBand idx f)) ∧
    (∀ e ∈ s.events, e ∈ s'.events) ∧
    (r = none → ∃ f, Ev.bandHeader idx f ∈ s'.events) ∧
    (∀ p ∈ temps, p.folder = cfg.tmpFolder) ∧
    (∀ q, q.folder ≠ cfg.tmpFolder → q.base.data.getLast? = some 'f' →
      fsHas s.fs q = true → fsHas s'.fs q = true) ∧
    (cfg.outFolder ≠ cfg.tmpFolder → r = none →
      ∃ f, createCogFileName cfg.inFile.base b.inBand b.outBand
        cfg.hasTimeIndex = .ok f ∧ fsHas s'.fs ⟨cfg.outFolder, f⟩ = true) := by
  rw [bandStep] at h
  split at h
  · -- name resolution raised
    obtain ⟨rfl, rfl, rfl⟩ := triple_eq h
    refine ⟨fun e he => Or.inl he, fun e he => he,
      fun hno => Option.noConfusion hno, by simp, fun q _ _ hq => hq,
      fun _ hno => Option.noConfusion hno⟩
  · rename_i cogFile hname
    simp only at h
    split at h
    · -- skip branch
      rename_i hskip
      obtain ⟨rfl, rfl, rfl⟩ := triple_eq h
      simp only [Bool.and_eq_true, Bool.not_eq_true'] at hskip
      refine ⟨?_, ?_, ?_, by simp, fun q _ _ hq => hq, ?_⟩
      · intro e he
        simp only [List.append_assoc, List.mem_append, List.mem_cons,
          List.not_mem_nil, or_false] at he
        rcases he with he | he | he
        · exact Or.inl he
        · subst he; exact Or.inr (Or.inr (Or.inl ⟨_, rfl⟩))
        · subst he; exact Or.inr (Or.inr (Or.inr ⟨_, rfl⟩))
      · intro e he
        simp [he]
      · intro _
        exact ⟨cogFile, by simp⟩
      · intro _ _
        exact ⟨cogFile, hname, hskip.2⟩
    · -- conversion branch
      rename_i hskip
      have hbc := bandConvert_spec cfg env today fa b battrs cogFile
        ⟨cfg.outFolder, cogFile⟩ ((splitext cogFile.data).1.asString)
        { s with events := s.events ++ [Ev.bandHeader idx cogFile] } s' temps r h
      obtain ⟨hup, hdown, htemps, hpres, hpub⟩ := hbc
      refine ⟨?_, ?_, ?_, htemps, ?_, ?_⟩
      · intro e he
        rcases hup e he with he2 | he2
        · simp only [List.mem_append, List.mem_cons, List.not_mem_nil,
            or_false] at he2
          rcases he2 with he2 | he2
          · exact Or.inl he2
          · subst he2; exact Or.inr (Or.inr (Or.inl ⟨_, rfl⟩))
        · exact Or.inr (Or.inl he2)
      · intro e he
        exact hdown e (by simp [he])
      · intro _
        exact ⟨cogFile, hdown (Ev.bandHeader idx cogFile) (by simp)⟩
      · intro q hqfold hqf hq
        exact hpres q hqfold hqf hq
      · intro hfold hr
        exact ⟨cogFile, hname, hpub (by simpa using hfold) hr⟩

lemma bandStep_skip (cfg : CogCfg) (env : String → Bool) (today : String)
    (fa : List (String × PyValue)) (idx : Nat) (b : BandInfo)
    (battrs : List (String × PyValue)) (s : PState) (f : String)
    (hover : cfg.overwriteExistingFiles = false)
    (hname : createCogFileName cfg.inFile.base b.inBand b.outBand
      cfg.hasTimeIndex = .ok f)
    (hhas : fsHas s.fs ⟨cfg.outFolder, f⟩ = true) :
    bandStep cfg env today fa idx b battrs s =
      ({ s with events :=
          s.events ++ [Ev.bandHeader idx f, Ev.skippedBand idx f] }, [], none) := by
  rw [bandStep, hname]
  simp only [hover, Bool.not_false, Bool.true_and]
  rw [if_pos (by simpa using hhas)]
  simp

lemma processBands_prefix (cfg : CogCfg) (env : String → Bool) (today : String)
    (fa : List (String × PyValue)) :
    ∀ (bl : List (BandInfo × List (String × PyValue))) (k : Nat) (s : PState)
      (acc : List FPath),
      (∀ j, (s.events.any (isBandHeader j) = true) ↔ j < k) →
      ∃ m ≤ bl.length,
        (∀ j, ((processBands cfg env today fa
            ((enumFrom k bl).map (fun e => (e.1, e.2.1, e.2.2))) s acc).1.events.any
            (isBandHeader j) = true ↔ j < k + m)) ∧
        ((processBands cfg env today fa
            ((enumFrom k bl).map (fun e => (e.1, e.2.1, e.2.2))) s acc).2.2 = none →
          m = bl.length) := by
  intro bl
  induction bl with
  | nil =>
    intro k s acc hinv
    exact ⟨0, by simp, fun j => by simpa using hinv j, fun _ => rfl⟩
  | cons hd tl ih =>
    intro k s acc hinv
    obtain ⟨b, ba⟩ := hd
    rw [show (enumFrom k ((b, ba) :: tl)).map
        (fun e => (e.1, e.2.1, e.2.2)) =
        (k, b, ba) :: (enumFrom (k + 1) tl).map (fun e => (e.1, e.2.1, e.2.2))
      from rfl]
    rw [processBands]
    rcases hbs : bandStep cfg env today fa k b ba s with ⟨s1, temps, r1⟩
    obtain ⟨hup, hdown, hhdr, _, _, _⟩ := bandStep_spec _ _ _ _ _ _ _ _ _ _ _ hbs
    have hlt : ∀ j, j < k → s1.events.any (isBandHeader j) = true := by
      intro j hj
      obtain ⟨e, he, hpe⟩ := List.any_eq_true.mp ((hinv j).mpr hj)
      exact List.any_eq_true.mpr ⟨e, hdown e he, hpe⟩
    have hgt : ∀ j, k < j → s1.events.any (isBandHeader j) = false := by
      intro j hj
      rw [Bool.eq_false_iff]
      intro hany
      obtain ⟨e, he, hpe⟩ := List.any_eq_true.mp hany
      rcases hup e he with he2 | he2 | ⟨f, rfl⟩ | ⟨f, rfl⟩
      · have := (hinv j).mp (List.any_eq_true.mpr ⟨e, he2, hpe⟩)
        omega
      · cases e
        · simp [isCmdRun] at he2
        · simp [isCmdRun] at he2
        · simp [isBandHeader] at hpe
      · simp only [isBandHeader, beq_iff_eq] at hpe
        omega
      · simp [isSkipped, isBandHeader] at hpe
    cases r1 with
    | some e1 =>
      simp only
      by_cases hk : s1.events.any (isBandHeader k) = true
      · refine ⟨1, by simp, fun j => ?_, fun hno => Option.noConfusion hno⟩
        constructor
        · intro hany
          by_contra hge
          have hj : k < j := by omega
          rw [hgt j hj] at hany
          cases hany
        · intro hj
          rcases Nat.lt_or_ge j k with hlt2 | hge
          · exact hlt j hlt2
          · have : j = k := by omega
            subst this
            exact hk
      · refine ⟨0, by simp, fun j => ?_, fun hno => Option.noConfusion hno⟩
        constructor
        · intro hany
          by_contra hge
          rcases Nat.lt_or_ge k j with hgt2 | hle
          · rw [hgt j hgt2] at hany
            cases hany
          · have : j = k := by omega
            subst this
            exact hk hany
        · intro hj
          exact hlt j (by omega)
    | none =>
      simp only
      have hinv1 : ∀ j, (s1.events.any (isBandHeader j) = true) ↔ j < k + 1 := by
        intro j
        constructor
        · intro hany
          by_contra hge
          have : k < j := by omega
          rw [hgt j this] at hany
          cases hany
        · intro hj
          rcases Nat.lt_or_ge j k with hlt2 | hge
          · exact hlt j hlt2
          · have : j = k := by omega
            subst this
            obtain ⟨f, hf⟩ := hhdr rfl
            exact List.any_eq_true.mpr ⟨_, hf, by simp [isBandHeader]⟩
      obtain ⟨m', hm'le, hm'iff, hm'none⟩ := ih (k + 1) s1 (acc ++ temps) hinv1
      refine ⟨m' + 1, by simpa using hm'le, fun j => ?_, fun hno => ?_⟩
      · rw [show k + (m' + 1) = (k + 1) + m' by omega]
        exact hm'iff j
      · rw [hm'none hno]
        simp

lemma gatherBandAttrs_map (nc : NcFile) :
    ∀ (l : List BandInfo) (bl : List (BandInfo × List (String × PyValue))),
      gatherBandAttrs nc l = .ok bl → bl.map (fun e => e.1) = l := by
  intro l
  induction l with
  | nil => intro bl h; cases h; rfl
  | cons b rest ih =>
    intro bl h
    rw [gatherBandAttrs] at h
    split at h
    · rename_i v hv
      split at h
      · cases h
      · rename_i tail htail
        cases h
        simp only [List.map_cons]
        rw [ih tail htail]
    · cases h

lemma removeTempFiles_mono (q : FPath) :
    ∀ (l : List FPath) (fs : FS), fsGet fs q = none →
      fsGet (removeTempFiles l fs).1 q = none := by
  intro l
  induction l with
  | nil => intro fs h; exact h
  | cons p rest ih =>
    intro fs h
    rw [removeTempFiles]
    split
    · apply ih
      by_cases hq : q = p
      · subst hq
        exact fsGet_fsRemove_self _ _
      · rw [fsGet_fsRemove_ne _ _ _ hq]
        exact h
    · exact h

lemma removeTempFiles_removes :
    ∀ (l : List FPath) (fs : FS) (fs' : FS),
      removeTempFiles l fs = (fs', none) → ∀ p ∈ l, fsGet fs' p = none := by
  intro l
  induction l with
  | nil => intro fs fs' _ p hp; simp at hp
  | cons p0 rest ih =>
    intro fs fs' h p hp
    rw [removeTempFiles] at h
    split at h
    · rcases List.mem_cons.mp hp with rfl | hp2
      · have := removeTempFiles_mono p rest (fsRemove fs p)
          (fsGet_fsRemove_self _ _)
        rw [h] at this
        exact this
      · exact ih _ _ h p hp2
    · obtain ⟨_, h2⟩ := Prod.mk.injEq .. |>.mp h
      cases h2

lemma removeTempFiles_preserves (q : FPath) :
    ∀ (l : List FPath) (fs : FS), (∀ p ∈ l, q ≠ p) →
      fsGet (removeTempFiles l fs).1 q = fsGet fs q := by
  intro l
  induction l with
  | nil => intro fs _; rfl
  | cons p rest ih =>
    intro fs hq
    rw [removeTempFiles]
    split
    · rw [ih (fsRemove fs p) (fun x hx => hq x (List.mem_cons_of_mem _ hx))]
      exact fsGet_fsRemove_ne _ _ _ (hq p (List.mem_cons_self ..))
    · rfl

lemma enumFrom_mem : ∀ (l : List α) (k j : Nat), j < l.length →
    ∃ x, (k + j, x) ∈ enumFrom k l := by
  intro l
  induction l with
  | nil => intro k j h; simp at h
  | cons a rest ih =>
    intro k j h
    cases j with
    | zero => exact ⟨a, by simp [enumFrom]⟩
    | succ j' =>
      obtain ⟨x, hx⟩ := ih (k + 1) j' (by simpa using h)
      refine ⟨x, ?_⟩
      rw [show k + (j' + 1) = (k + 1) + j' by omega]
      exact List.mem_cons_of_mem _ hx

lemma processBands_run1 (cfg : CogCfg) (env : String → Bool) (today : String)
    (fa : List (String × PyValue)) (hfold : cfg.outFolder ≠ cfg.tmpFolder) :
    ∀ (L : List (Nat × BandInfo × List (String × PyValue))) (s : PState)
      (acc : List FPath) (s' : PState) (acc' : List FPath),
      processBands cfg env today fa L s acc = (s', acc', none) →
      (∀ p ∈ acc', p ∈ acc ∨ p.folder = cfg.tmpFolder) ∧
      (∀ q, q.folder ≠ cfg.tmpFolder → q.base.data.getLast? = some 'f' →
        fsHas s.fs q = true → fsHas s'.fs q = true) ∧
      (∀ idx b ba, (idx, b, ba) ∈ L →
        ∃ f, createCogFileName cfg.inFile.base b.inBand b.outBand
          cfg.hasTimeIndex = .ok f ∧ fsHas s'.fs ⟨cfg.outFolder, f⟩ = true) := by
  intro L
  induction L with
  | nil =>
    intro s acc s' acc' h
    obtain ⟨rfl, rfl, _⟩ := triple_eq h
    exact ⟨fun p hp => Or.inl hp, fun q _ _ hq => hq, by simp⟩
  | cons hd tl ih =>
    intro s acc s' acc' h
    obtain ⟨idx0, b0, ba0⟩ := hd
    rw [processBands] at h
    rcases hbs : bandStep cfg env today fa idx0 b0 ba0 s with ⟨s1, temps, r1⟩
    rw [hbs] at h
    cases r1 with
    | some e1 =>
      obtain ⟨_, _, h3⟩ := triple_eq h
      cases h3
    | none =>
      obtain ⟨_, _, _, htemps, hpres, hpub⟩ :=
        bandStep_spec _ _ _ _ _ _ _ _ _ _ _ hbs
      obtain ⟨hacc, hpres2, houts⟩ := ih s1 (acc ++ temps) s' acc' h
      refine ⟨?_, ?_, ?_⟩
      · intro p hp
        rcases hacc p hp with hp2 | hp2
        · rcases List.mem_append.mp hp2 with hp3 | hp3
          · exact Or.inl hp3
          · exact Or.inr (htemps p hp3)
        · exact Or.inr hp2
      · intro q hqfold hqf hq
        exact hpres2 q hqfold hqf (hpres q hqfold hqf hq)
      · intro idx b ba hmem
        rcases List.mem_cons.mp hmem with heq | hmem2
        · obtain ⟨h1, h2, h3⟩ := Prod.mk.injEq .. |>.mp heq |>.imp id
            (fun hh => Prod.mk.injEq .. |>.mp hh)
          subst h1
          subst h2
          subst h3
          obtain ⟨f, hf, hhas⟩ := hpub hfold rfl
          refine ⟨f, hf, ?_⟩
          obtain ⟨u, rfl⟩ := createCogFileName_ends_tiff _ _ _ _ _ hf
          exact hpres2 _ (by simpa using hfold) (lastChar_append_tiff u) hhas
        · exact houts idx b ba hmem2

lemma processBands_skips (cfg : CogCfg) (env : String → Bool) (today : String)
    (fa : List (String × PyValue))
    (hover : cfg.overwriteExistingFiles = false) :
    ∀ (L : List (Nat × BandInfo × List (String × PyValue))) (s : PState)
      (acc : List FPath),
      (∀ idx b ba, (idx, b, ba) ∈ L →
        ∃ f, createCogFileName cfg.inFile.base b.inBand b.outBand
          cfg.hasTimeIndex = .ok f ∧ fsHas s.fs ⟨cfg.outFolder, f⟩ = true) →
      ∃ ev, processBands cfg env today fa L s acc =
        ({ s with events := s.events ++ ev }, acc, none) ∧
        (∀ e ∈ ev, isCmdRun e = false) ∧
        (∀ idx b ba, (idx, b, ba) ∈ L → ev.any (isSkipped idx) = true) := by
  intro L
  induction L with
  | nil =>
    intro s acc _
    exact ⟨[], by simp [processBands], by simp, by simp⟩
  | cons hd tl ih =>
    intro s acc hhas
    obtain ⟨idx0, b0, ba0⟩ := hd
    obtain ⟨f, hf, hfs⟩ := hhas idx0 b0 ba0 (List.mem_cons_self ..)
    rw [processBands, bandStep_skip cfg env today fa idx0 b0 ba0 s f hover hf hfs]
    simp only
    obtain ⟨ev', hev', hcmd', hskip'⟩ := ih
      { s with events := s.events ++ [Ev.bandHeader idx0 f, Ev.skippedBand idx0 f] }
      (acc ++ []) (fun idx b ba hmem => hhas idx b ba (List.mem_cons_of_mem _ hmem))
    refine ⟨[Ev.bandHeader idx0 f, Ev.skippedBand idx0 f] ++ ev', ?_, ?_, ?_⟩
    · rw [hev']
      simp
    · intro e he
      simp only [List.cons_append, List.nil_append, List.mem_cons] at he
      rcases he with rfl | rfl | he
      · rfl
      · rfl
      · exact hcmd' e he
    · intro idx b ba hmem
      rcases List.mem_cons.mp hmem with heq | hmem2
      · obtain ⟨h1, _⟩ := Prod.mk.injEq .. |>.mp heq
        subst h1
        simp [isSkipped]
      · have := hskip' idx b ba hmem2
        simp only [List.any_append]
        rw [this]
        simp

/-- C1 (amended): bands are processed strictly as a prefix of the configured
list: there is an `m` such that exactly bands `0..m-1` were started (their
progress lines logged, in order), and when the job finishes without a raised
exception `m` covers the whole band list.  A failed band's exception aborts
the job, so the bands after it are never started — all-or-nothing, not
per-band partial failure. -/
theorem pipeline_prefix_spec (cfg : CogCfg) (nc : NcFile)
    (env : String → Bool) (today : String) (fs0 : FS) :
    ∃ m ≤ cfg.bandInfoList.length,
      (∀ j, ((cogProcessorFull cfg nc env today fs0).1.events.any
        (isBandHeader j) = true ↔ j < m)) ∧
      ((cogProcessorFull cfg nc env today fs0).2.2 = none →
        m = cfg.bandInfoList.length) := by
  rcases hg : gatherBandAttrs nc cfg.bandInfoList with e | bl
  · refine ⟨0, by simp, ?_, ?_⟩
    · intro j
      simp [cogProcessorFull, hg]
    · simp [cogProcessorFull, hg]
  · have hlen : bl.length = cfg.bandInfoList.length := by
      have hmap := gatherBandAttrs_map nc cfg.bandInfoList bl hg
      calc bl.length = (bl.map (fun e => e.1)).length := by simp
        _ = cfg.bandInfoList.length := by rw [hmap]
    obtain ⟨m, hm, hiff, hnone⟩ := processBands_prefix cfg env today nc.attrs
      bl 0 ⟨fs0, []⟩ [] (fun j => by simp)
    rcases hpb : processBands cfg env today nc.attrs
        ((enumFrom 0 bl).map (fun e => (e.1, e.2.1, e.2.2))) ⟨fs0, []⟩ []
      with ⟨s1, temps1, r1⟩
    rw [hpb] at hiff hnone
    refine ⟨m, by omega, ?_, ?_⟩
    · intro j
      cases r1 with
      | some e1 =>
        simp only [cogProcessorFull, hg, hpb]
        simpa using hiff j
      | none =>
        simp only [cogProcessorFull, hg, hpb]
        simpa using hiff j
    · cases r1 with
      | some e1 =>
        intro hno
        have hsome : (cogProcessorFull cfg nc env today fs0).2.2 = some e1 := by
          simp only [cogProcessorFull, hg, hpb]
        rw [hsome] at hno
        cases hno
      | none =>
        intro _
        rw [hlen] at hnone
        exact hnone rfl

/-- C5 (amended): cleanup runs only when every band finished without a raised
exception.  In that case — the job's outcome is `none` — every intermediate
artifact recorded during base extraction and overview generation is removed
from the filesystem: each collected temp path is absent at the end.  (When a
band fails, the job aborts before the cleanup loop; see the counterexample.) -/
theorem cleanup_spec (cfg : CogCfg) (nc : NcFile) (env : String → Bool)
    (today : String) (fs0 : FS)
    (h : (cogProcessorFull cfg nc env today fs0).2.2 = none) :
    ∀ p ∈ (cogProcessorFull cfg nc env today fs0).2.1,
      fsGet (cogProcessorFull cfg nc env today fs0).1.fs p = none := by
  rcases hg : gatherBandAttrs nc cfg.bandInfoList with e | bl
  · intro p hp
    simp [cogProcessorFull, hg] at hp
  · rcases hpb : processBands cfg env today nc.attrs
        ((enumFrom 0 bl).map (fun e => (e.1, e.2.1, e.2.2))) ⟨fs0, []⟩ []
      with ⟨s1, temps1, r1⟩
    cases r1 with
    | some e1 =>
      rw [show (cogProcessorFull cfg nc env today fs0).2.2 = some e1 from by
        simp only [cogProcessorFull, hg, hpb]] at h
      cases h
    | none =>
      rcases hr : removeTempFiles temps1 s1.fs with ⟨fs2, r2⟩
      have hout : cogProcessorFull cfg nc env today fs0 =
          ({ s1 with fs := fs2 }, temps1, r2) := by
        simp only [cogProcessorFull, hg, hpb, hr]
      rw [hout] at h ⊢
      intro p hp
      exact removeTempFiles_removes temps1 s1.fs fs2
        (by rw [hr, show r2 = none from h]) p hp

theorem cleanup_spec_witness :
    (cogProcessorFull cfgAbort ncAbort envAll "2026-10-12" []).2.2 = none ∧
    ∀ p ∈ (cogProcessorFull cfgAbort ncAbort envAll "2026-10-12" []).2.1,
      fsGet (cogProcessorFull cfgAbort ncAbort envAll "2026-10-12" []).1.fs
        p = none :=
  ⟨by decide,
   cleanup_spec cfgAbort ncAbort envAll "2026-10-12" [] (by decide)⟩

/-- C3 (amended): (a) per band, when the overwrite flag is disabled and the
output file already exists at the final output path, the band terminates as
skipped: only the progress and skip log lines are emitted, no command runs,
and the filesystem and temp list are untouched.  (b) The idempotence
consequence holds under the extra premise that the temporary and output
folders differ (without it, see the counterexample): after a successful first
run, a second identical run changes nothing in the filesystem, raises no
exception, runs no external command, and skips every configured band. -/
theorem skip_idempotence_spec (cfg : CogCfg) (nc : NcFile) (env : String → Bool)
    (today : String) (fs0 : FS)
    (hover : cfg.overwriteExistingFiles = false)
    (hfold : cfg.outFolder ≠ cfg.tmpFolder)
    (h1 : (cogProcessorFull cfg nc env today fs0).2.2 = none) :
    (∀ fa idx b ba s f,
      createCogFileName cfg.inFile.base b.inBand b.outBand cfg.hasTimeIndex
        = .ok f →
      fsHas s.fs ⟨cfg.outFolder, f⟩ = true →
      bandStep cfg env today fa idx b ba s =
        ({ s with events :=
            s.events ++ [Ev.bandHeader idx f, Ev.skippedBand idx f] },
          [], none)) ∧
    (cogProcessorFull cfg nc env today
        (cogProcessorFull cfg nc env today fs0).1.fs).1.fs =
      (cogProcessorFull cfg nc env today fs0).1.fs ∧
    (cogProcessorFull cfg nc env today
        (cogProcessorFull cfg nc env today fs0).1.fs).2.2 = none ∧
    (∀ e ∈ (cogProcessorFull cfg nc env today
        (cogProcessorFull cfg nc env today fs0).1.fs).1.events,
      isCmdRun e = false) ∧
    (∀ j, j < cfg.bandInfoList.length →
      ((cogProcessorFull cfg nc env today
        (cogProcessorFull cfg nc env today fs0).1.fs).1.events.any
        (isSkipped j)) = true) := by
  refine ⟨fun fa idx b ba s f hf hhas =>
    bandStep_skip cfg env today fa idx b ba s f hover hf hhas, ?_⟩
  rcases hg : gatherBandAttrs nc cfg.bandInfoList with e | bl
  · rw [show (cogProcessorFull cfg nc env today fs0).2.2 = some e from by
      simp only [cogProcessorFull, hg]] at h1
    cases h1
  · rcases hpb : processBands cfg env today nc.attrs
        ((enumFrom 0 bl).map (fun e => (e.1, e.2.1, e.2.2))) ⟨fs0, []⟩ []
      with ⟨s1, temps1, r1⟩
    cases r1 with
    | some e1 =>
      rw [show (cogProcessorFull cfg nc env today fs0).2.2 = some e1 from by
        simp only [cogProcessorFull, hg, hpb]] at h1
      cases h1
    | none =>
      rcases hr : removeTempFiles temps1 s1.fs with ⟨fsr, rr⟩
      have hout1 : cogProcessorFull cfg nc env today fs0 =
          ({ s1 with fs := fsr }, temps1, rr) := by
        simp only [cogProcessorFull, hg, hpb, hr]
      have hrr : rr = none := by rw [hout1] at h1; exact h1
      subst hrr
      obtain ⟨htempfold, _, houts⟩ := processBands_run1 cfg env today nc.attrs
        hfold _ ⟨fs0, []⟩ [] s1 temps1 hpb
      have houts2 : ∀ idx b ba,
          (idx, b, ba) ∈ (enumFrom 0 bl).map (fun e => (e.1, e.2.1, e.2.2)) →
          ∃ f, createCogFileName cfg.inFile.base b.inBand b.outBand
            cfg.hasTimeIndex = .ok f ∧
            fsHas fsr ⟨cfg.outFolder, f⟩ = true := by
        intro idx b ba hm
        obtain ⟨f, hf, hhas⟩ := houts idx b ba hm
        refine ⟨f, hf, ?_⟩
        have hne : ∀ p ∈ temps1, FPath.mk cfg.outFolder f ≠ p := by
          intro p hp hEq
          rcases htempfold p hp with hin | hfd
          · simp at hin
          · rw [← hEq] at hfd
            exact hfold hfd
        have hpe : fsGet fsr ⟨cfg.outFolder, f⟩ =
            fsGet s1.fs ⟨cfg.outFolder, f⟩ := by
          have h2 := removeTempFiles_preserves ⟨cfg.outFolder, f⟩ temps1 s1.fs hne
          rw [hr] at h2
          exact h2
        simp only [fsHas] at hhas ⊢
        rw [hpe]
        exact hhas
      obtain ⟨ev, hev, hcmd, hskip⟩ := processBands_skips cfg env today nc.attrs
        hover _ ⟨fsr, []⟩ [] houts2
      have hout2 : cogProcessorFull cfg nc env today fsr =
          ({ fs := fsr, events := [] ++ ev }, [], none) := by
        simp only [cogProcessorFull, hg, hev, removeTempFiles]
      have hlen : bl.length = cfg.bandInfoList.length := by
        have hmap := gatherBandAttrs_map nc cfg.bandInfoList bl hg
        calc bl.length = (bl.map (fun e => e.1)).length := by simp
          _ = cfg.bandInfoList.length := by rw [hmap]
      rw [hout1]
      simp only
      rw [hout2]
      refine ⟨rfl, rfl, ?_, ?_⟩
      · intro e he
        exact hcmd e (by simpa using he)
      · intro j hj
        obtain ⟨x, hx⟩ := enumFrom_mem bl 0 j (by omega)
        have hmem : ((0 + j, x.1, x.2) :
            Nat × BandInfo × List (String × PyValue)) ∈
            (enumFrom 0 bl).map (fun e => (e.1, e.2.1, e.2.2)) :=
          List.mem_map.mpr ⟨(0 + j, x), hx, rfl⟩
        have hs := hskip (0 + j) x.1 x.2 hmem
        rw [Nat.zero_add] at hs
        simp [hs]

theorem skip_idempotence_spec_witness :
    cfgAbort.overwriteExistingFiles = false ∧
    cfgAbort.outFolder ≠ cfgAbort.tmpFolder ∧
    (cogProcessorFull cfgAbort ncAbort envAll "2026-10-12" []).2.2 = none ∧
    (cogProcessorFull cfgAbort ncAbort envAll "2026-10-12"
        (cogProcessorFull cfgAbort ncAbort envAll "2026-10-12" []).1.fs).1.fs =
      (cogProcessorFull cfgAbort ncAbort envAll "2026-10-12" []).1.fs :=
  ⟨by decide, by decide, by decide,
   (skip_idempotence_spec cfgAbort ncAbort envAll "2026-10-12" []
     (by decide) (by decide) (by decide)).2.1⟩
